import Mathlib

/-!
Verification of the compiler-toolkit grammar/automata algorithms.

The JavaScript sources are shallowly embedded:
* strings stay `String`, symbol sequences are `List String`;
* JavaScript objects (string-keyed records in insertion order) become
  association lists with `lookupG`/`setG` (update in place, append new keys);
* JavaScript `Set`s become insertion-ordered duplicate-free lists built
  with `sadd`;
* unbounded `while` loops take an explicit fuel argument mirroring the
  loop body exactly; the fuel chosen at each call site is large enough for
  the bounded loops of the source.

Namespaces follow the source files:
* `Master`  — the master script (`src/unnamed/part_001`);
* `Tools`   — `src/tools.js`;
* `Js`      — `src/js/tools.js`.
-/

/-- Symbols of a grammar (plain strings, as in the source). -/
abbrev Symb := String

/-- One alternative: an ordered sequence of symbols. -/
abbrev Alt := List Symb

/-- The alternatives of one nonterminal. -/
abbrev Cell := List Alt

/-- A grammar: nonterminal name to alternatives, in insertion order
(the JavaScript `prods` object). -/
abbrev Grammar := List (Symb × Cell)

/-- The epsilon marker used throughout the source. -/
def eps : Symb := "ε"

/-- Lookup in an insertion-ordered record (JavaScript property read). -/
def lookupG {α : Type} : List (Symb × α) → Symb → Option α
  | [], _ => none
  | (k, v) :: rest, key => if k = key then some v else lookupG rest key

/-- Lookup with default. -/
def getG {α : Type} (m : List (Symb × α)) (key : Symb) (d : α) : α :=
  (lookupG m key).getD d

/-- JavaScript property write: update an existing key in place, append a
new key at the end. -/
def setG {α : Type} : List (Symb × α) → Symb → α → List (Symb × α)
  | [], key, v => [(key, v)]
  | (k, w) :: rest, key, v =>
    if k = key then (k, v) :: rest else (k, w) :: setG rest key v

/-- `Object.keys`. -/
def keysG {α : Type} (m : List (Symb × α)) : List Symb := m.map Prod.fst

/-- JavaScript `Set.add`: append unless already present. -/
def sadd {α : Type} [DecidableEq α] (s : List α) (x : α) : List α :=
  if x ∈ s then s else s ++ [x]

/-- Accumulate several `Set.add` calls. -/
def saddAll {α : Type} [DecidableEq α] (s : List α) (xs : List α) : List α :=
  xs.foldl sadd s

namespace Master

/-- `firstOfString` from the master script, lines 120–150.  The loop is
modelled by `firstOfStringGo`: the accumulator is the `res` set; a branch
that `break`s with `allNullable = false` returns the set as is, and
reaching the end of the token list (where `allNullable` is still `true`)
adds the epsilon marker. -/
def firstOfStringGo (FIRST : List (Symb × List Symb)) (nts : List Symb) :
    List Symb → List Symb → List Symb
  | [], res => sadd res eps
  | sym :: rest, res =>
    if sym = eps ∨ sym = "epsilon" then
      firstOfStringGo FIRST nts rest res
    else if sym ∉ nts then
      sadd res sym
    else
      let fset := getG FIRST sym []
      let res2 := fset.foldl
        (fun r t => if t ≠ eps ∧ t ≠ "epsilon" then sadd r t else r) res
      if eps ∈ fset ∨ "epsilon" ∈ fset then
        firstOfStringGo FIRST nts rest res2
      else
        res2

/-- `firstOfString(tokens, FIRST, nonterminalsSet)` of the master script. -/
def firstOfString (tokens : List Symb) (FIRST : List (Symb × List Symb))
    (nts : List Symb) : List Symb :=
  firstOfStringGo FIRST nts tokens []

end Master

namespace Js

/-- `firstOfString` from `src/js/tools.js`, lines 107–127.  Unlike the
master version, an epsilon symbol adds the marker and stops the scan.
The second component of the result is the `nullable` flag at loop exit. -/
def firstOfStringGo (FIRST : List (Symb × List Symb)) (nts : List Symb) :
    List Symb → List Symb → List Symb × Bool
  | [], res => (res, true)
  | sym :: rest, res =>
    if sym = eps then
      (sadd res eps, true)
    else if sym ∉ nts then
      (sadd res sym, false)
    else
      let fset := getG FIRST sym []
      let res2 := fset.foldl (fun r t => if t ≠ eps then sadd r t else r) res
      if eps ∈ fset then
        firstOfStringGo FIRST nts rest res2
      else
        (res2, false)

/-- `firstOfString(rhs, FIRST, nonterminals)` of `src/js/tools.js`. -/
def firstOfString (rhs : List Symb) (FIRST : List (Symb × List Symb))
    (nts : List Symb) : List Symb :=
  let out := firstOfStringGo FIRST nts rhs []
  if out.2 then sadd out.1 eps else out.1

end Js

namespace Master

/-- Result record of `identifySymbols` (master script, lines 97–114). -/
structure SymInfo where
  nonterminals : List Symb
  terminals : List Symb
  start : Option Symb
  deriving DecidableEq, Repr

/-- `identifySymbols(prods)` of the master script.  `start` is the first
key, `null` (here `none`) when there is no production. -/
def identifySymbols (prods : Grammar) : SymInfo :=
  let nonterm := saddAll [] (keysG prods)
  let terms := prods.foldl
    (fun ts p => p.2.foldl
      (fun ts2 rhs => rhs.foldl
        (fun ts3 t =>
          if t = eps ∨ t = "epsilon" then ts3
          else if t ∈ nonterm then ts3 else sadd ts3 t) ts2) ts) []
  { nonterminals := nonterm, terminals := terms,
    start := (keysG prods).head? }

/-- One pass of the worklist loop computing reachability in
`validateGrammar`.  The stack is modelled with its top at the head; the
loop only ever uses the reachable set through membership, so the
traversal order does not change the result sets. -/
def reachLoop (prods : Grammar) (defined : List Symb) :
    Nat → List Symb → List Symb → List Symb
  | 0, reachable, _ => reachable
  | _ + 1, reachable, [] => reachable
  | fuel + 1, reachable, a :: stack =>
    let step := (getG prods a []).foldl
      (fun (acc : List Symb × List Symb) rhs =>
        rhs.foldl
          (fun acc2 t =>
            if t ∈ defined ∧ t ∉ acc2.1 then (acc2.1 ++ [t], t :: acc2.2)
            else acc2) acc)
      (reachable, stack)
    reachLoop prods defined fuel step.1 step.2

/-- One pass over all productions of the productive-symbol fixed point in
`validateGrammar` (master script, lines 760–792). -/
def productivePass (prods : Grammar) (defined terminalsSet : List Symb) :
    List Symb → List Symb × Bool
  | productive0 =>
    prods.foldl
      (fun (st : List Symb × Bool) p =>
        let A := p.1
        if A ∈ st.1 then st
        else
          let hit := p.2.any (fun rhs =>
            (rhs.length = 1 ∧ (rhs.headD "" = eps ∨ rhs.headD "" = "epsilon")) ∨
            rhs.all (fun s =>
              s = eps ∨ s = "epsilon" ∨
              (s ∈ terminalsSet ∧ s ∉ defined) ∨
              (s ∈ defined ∧ s ∈ st.1)))
          if hit then (sadd st.1 A, true) else st)
      (productive0, false)

/-- The `while (changed)` loop around `productivePass`. -/
def productiveLoop (prods : Grammar) (defined terminalsSet : List Symb) :
    Nat → List Symb → List Symb
  | 0, productive0 => productive0
  | fuel + 1, productive0 =>
    let st := productivePass prods defined terminalsSet productive0
    if st.2 then productiveLoop prods defined terminalsSet fuel st.1
    else st.1

/-- Result record of `validateGrammar` (master script, lines 710–806). -/
structure ValidationReport where
  start : Option Symb
  nonterminals : List Symb
  terminals : List Symb
  undefinedNT : List Symb
  unreachable : List Symb
  neverUsed : List Symb
  productive : List Symb
  nonProductive : List Symb
  deriving DecidableEq, Repr

/-- `validateGrammar(prods)` of the master script.  The two `while`
loops are run with fuel `keys + 2` passes; every pass that reports a
change grows a subset of the (de-duplicated) key set by at least one
element, so this fuel reaches the fixed point of the source. -/
def validateGrammar (prods : Grammar) : ValidationReport :=
  let nonterms := keysG prods
  let sym := identifySymbols prods
  let start := sym.start
  let defined := saddAll [] nonterms
  let used := prods.foldl
    (fun u p => p.2.foldl
      (fun u2 rhs => rhs.foldl
        (fun u3 t => if t ∈ defined then sadd u3 t else u3) u2) u) []
  let undefinedNT := used.filter (fun x => decide (x ∉ defined))
  let reachable :=
    match start with
    | some s =>
      if s ∈ defined then
        reachLoop prods defined (nonterms.length + 2) [s] [s]
      else []
    | none => []
  let unreachable := nonterms.filter (fun A => decide (A ∉ reachable))
  let neverUsed := nonterms.filter (fun A =>
    decide (A ∉ used ∧ start ≠ some A))
  let terminalsSet := saddAll [] sym.terminals
  let productive :=
    productiveLoop prods defined terminalsSet (nonterms.length + 2) []
  let nonProductive := nonterms.filter (fun A => decide (A ∉ productive))
  { start := start, nonterminals := nonterms, terminals := sym.terminals,
    undefinedNT := undefinedNT, unreachable := unreachable,
    neverUsed := neverUsed, productive := productive,
    nonProductive := nonProductive }

end Master

namespace Master

/-- The ASCII apostrophe used as the prime marker for generated
nonterminals (character 39). -/
def apos : Char := Char.ofNat 39

/-- One prime marker as a string. -/
def aposS : Symb := String.singleton apos

/-- The `while (prods[prime]) prime += "'"` loop generating a fresh
primed name.  Candidate names strictly grow in length, so among
`prods.length + 1` candidates at least one is not a key and the source
loop stops at the first such candidate; the fuel used at the call site
is therefore enough. -/
def freshPrimeGo (prods : Grammar) : Nat → Symb → Symb
  | 0, cur => cur
  | fuel + 1, cur =>
    if (lookupG prods cur).isSome then
      freshPrimeGo prods fuel (cur ++ aposS)
    else cur

/-- Fresh primed name for `Ai`, starting from `Ai + "'"`. -/
def freshPrime (prods : Grammar) (Ai : Symb) : Symb :=
  freshPrimeGo prods (prods.length + 1) (Ai ++ aposS)

/-- Step 1 of `eliminateLeftRecursion` for one earlier nonterminal `Aj`:
rewrite every alternative of `Ai` beginning with `Aj` by substituting
each alternative of `Aj` (master script, lines 306–329). -/
def substStep (Ai Aj : Symb) (prods : Grammar) : Grammar :=
  let newR := (getG prods Ai []).foldl
    (fun acc rhs =>
      if rhs.head? = some Aj then
        acc ++ (getG prods Aj []).map (fun delta =>
          let ed := if delta = [eps] then [] else delta
          let combined := ed ++ rhs.tail
          if combined = [] then [eps] else combined)
      else acc ++ [rhs]) []
  setG prods Ai newR

/-- Step 1 of one outer iteration: substitution for all earlier
nonterminals in order (master script `for (let j = 0; j < i; j++)`). -/
def elimSubstPhase (Ai : Symb) (earlier : List Symb) (prods : Grammar) :
    Grammar :=
  earlier.foldl (fun p B => substStep Ai B p) prods

/-- The `alphas` partition of step 2: suffixes of the alternatives that
begin with `Ai` (an empty suffix becomes the epsilon alternative). -/
def elimAlphas (Ai : Symb) (alts : Cell) : Cell :=
  alts.foldl
    (fun acc rhs =>
      if rhs.head? = some Ai then
        acc ++ [if rhs.tail = [] then [eps] else rhs.tail]
      else acc) []

/-- The `betas` partition of step 2: the alternatives that do not begin
with `Ai`. -/
def elimBetas (Ai : Symb) (alts : Cell) : Cell :=
  alts.foldl
    (fun acc rhs =>
      if rhs.head? = some Ai then acc else acc ++ [rhs]) []

/-- Step 2 of one outer iteration: immediate-recursion removal (master
script, lines 332–369).  The writes happen in source order:
`prods[prime] = []`, then `prods[Ai] = newAi`, then the alternatives of
the primed nonterminal. -/
def elimImmediate (Ai : Symb) (nts : List Symb) (prods1 : Grammar) :
    List Symb × Grammar :=
  let alts := getG prods1 Ai []
  let alphas := elimAlphas Ai alts
  let betas := elimBetas Ai alts
  if alphas = [] then (nts, prods1)
  else
    let prime := freshPrime prods1 Ai
    (nts ++ [prime],
     setG
       (setG (setG prods1 prime [])
         Ai (betas.map (fun b => (if b = [eps] then [] else b) ++ [prime])))
       prime
       ((alphas.map (fun a => (if a = [eps] then [] else a) ++ [prime])) ++
         [[eps]]))

/-- One iteration of the outer loop of `eliminateLeftRecursion` at index
`i` (master script, lines 302–369). -/
def elimStep (i : Nat) (nts : List Symb) (prods : Grammar) :
    List Symb × Grammar :=
  elimImmediate (nts.getD i "") nts
    (elimSubstPhase (nts.getD i "")
      ((List.range i).map (fun j => nts.getD j "")) prods)

/-- The outer `for (let i = 0; i < nonterms.length; i++)` loop: the list
bound is re-evaluated each iteration, so freshly appended primed
nonterminals are processed too.  `none` means the fuel ran out before
the index caught up with the (growing) list. -/
def elimLoop : Nat → Nat → List Symb → Grammar → Option Grammar
  | 0, _, _, _ => none
  | fuel + 1, i, nts, prods =>
    if i < nts.length then
      let st := elimStep i nts prods
      elimLoop fuel (i + 1) st.1 st.2
    else some prods

/-- `eliminateLeftRecursion(prods0)` of the master script (lines
295–372), with explicit fuel for the outer loop. -/
def eliminateLeftRecursion (fuel : Nat) (prods0 : Grammar) : Option Grammar :=
  elimLoop fuel 0 (keysG prods0) prods0

end Master


/-- The names `A`, then `A` with `i` prime markers, as generated by
`eliminateLeftRecursion` on the one-production grammar below. -/
def nameA (i : Nat) : Symb := ⟨'A' :: List.replicate i Master.apos⟩

/-- Loop invariant of `eliminateLeftRecursion` on the grammar `A -> A`:
at the start of outer iteration `i` the enumeration consists of the
names `A, A', …` up to `i` primes, the keys agree with it, and the
newest primed nonterminal still has the self-recursive pair of
alternatives that regenerates the pattern. -/
def ElimInv (i : Nat) (nts : List Symb) (prods : Grammar) : Prop :=
  nts = (List.range (i + 1)).map nameA ∧
  keysG prods = nts ∧
  lookupG prods (nameA i) = some [[nameA i], [eps]]

/-- The grammar `A -> A` (one self-recursive unit production). -/
def gUnitRec : Grammar := [("A", [["A"]])]

/-- The grammar `B -> D x ; C -> ε ; D -> C B y`, on which epsilon
substitution exposes the earlier nonterminal `B` at the head of an
alternative of `D`. -/
def gIndirect : Grammar :=
  [("B", [["D", "x"]]), ("C", [[eps]]), ("D", [["C", "B", "y"]])]

/-- What `eliminateLeftRecursion` returns on `gIndirect`. -/
def gIndirectOut : Grammar :=
  [("B", [["D", "x"]]), ("C", [[eps]]), ("D", [["B", "y"]])]

namespace Master

/-- Candidate `_fact` names for `leftFactor`: `A_fact`, then `A_fact1`,
`A_fact2`, … (master script line 419–421: the counter starts at 1). -/
def factCand (A : Symb) : Nat → Symb
  | 0 => A ++ "_fact"
  | n + 1 => A ++ "_fact" ++ Nat.repr (n + 1)

/-- The `while (prods[prime])` loop over the candidates.  As for
`freshPrime`, `prods.length + 1` tries are enough for the source's
loop; if the fuel were ever exhausted the returned candidate still has
the `A_fact` prefix, which is all the theorems below use. -/
def freshFactGo (prods : Grammar) (A : Symb) : Nat → Nat → Symb
  | 0, c => factCand A c
  | fuel + 1, c =>
    if (lookupG prods (factCand A c)).isSome then
      freshFactGo prods A fuel (c + 1)
    else factCand A c

/-- Fresh `_fact` name for `A`. -/
def freshFact (prods : Grammar) (A : Symb) : Symb :=
  freshFactGo prods A (prods.length + 1) 0

/-- Add one alternative to its first-symbol group (`groups[firstSym]`
in the master script, insertion ordered). -/
def addGroup (groups : List (Symb × Cell)) (k : Symb) (rhs : Alt) :
    List (Symb × Cell) :=
  match lookupG groups k with
  | some g => setG groups k (g ++ [rhs])
  | none => groups ++ [(k, [rhs])]

/-- Group the alternatives by first symbol, skipping empty alternatives
(master script lines 392–398). -/
def buildGroups (rhss : Cell) : List (Symb × Cell) :=
  rhss.foldl
    (fun gs rhs =>
      match rhs.head? with
      | some k => addGroup gs k rhs
      | none => gs) []

/-- Longest common prefix of two symbol sequences (the inner `while`
of the prefix computation). -/
def lcp2 : Alt → Alt → Alt
  | x :: xs, y :: ys => if x = y then x :: lcp2 xs ys else []
  | _, _ => []

/-- Longest common prefix of a whole group (master script lines
405–415; the early `break` on an empty prefix does not change the
result). -/
def lcpGroup : Cell → Alt
  | [] => []
  | r :: rs => rs.foldl lcp2 r

/-- Factor one group with a shared prefix out of `A`'s alternatives
(master script lines 404–437).  The JavaScript `group.includes(r)`
uses reference equality; every alternative of `prods[A]` with the
group's first symbol is in the group by construction, so membership by
value removes exactly the same alternatives. -/
def factorGroup (A : Symb) (prods : Grammar) (g : Cell) : Grammar :=
  if 1 < g.length then
    let pre := lcpGroup g
    if pre = [] then prods
    else
      let prime := freshFact prods A
      let newA := (getG prods A []).filter (fun r => decide (r ∉ g)) ++
        [pre ++ [prime]]
      setG (setG prods A newA) prime
        (g.map (fun r =>
          if r.drop pre.length = [] then [eps] else r.drop pre.length))
  else prods

/-- Process one nonterminal of `leftFactor`: group its alternatives by
first symbol and factor every group (single pass, no recursion into the
fresh nonterminal — master script comment at line 436). -/
def leftFactorOne (prods : Grammar) (A : Symb) : Grammar :=
  if (getG prods A []).length < 2 then prods
  else (buildGroups (getG prods A [])).foldl
    (fun p kg => factorGroup A p kg.2) prods

/-- `leftFactor(prods0)` of the master script (lines 378–442): one pass
over the original nonterminals. -/
def leftFactor (prods0 : Grammar) : Grammar :=
  (keysG prods0).foldl leftFactorOne prods0

end Master

/-- Two sequences share a nonempty common symbol prefix exactly when
both are nonempty and have the same first symbol. -/
def sharesNonemptyPrefixB : Alt → Alt → Bool
  | x :: _, y :: _ => x = y
  | _, _ => false

/-- No two distinct alternatives of the cell share a nonempty common
symbol prefix. -/
def GoodCell (c : Cell) : Prop :=
  ∀ r ∈ c, ∀ s ∈ c, r ≠ s → sharesNonemptyPrefixB r s = false

/-- `A -> a b c | a b d | a x`, the left-factoring counterexample
input. -/
def gFact : Grammar := [("A", [["a", "b", "c"], ["a", "b", "d"], ["a", "x"]])]

/-- The alternatives kept (not yet factored out) of a nonterminal: an
alternative survives while its first symbol has no replacement entry. -/
def keptAlt (replKeys : List Symb) (r : Alt) : Bool :=
  match r.head? with
  | none => true
  | some k => decide (k ∉ replKeys)

/-- No nonterminal of the grammar is named like a generated `_fact`
name of another (or the same) nonterminal: no key extends `A ++ "_fact"`
for a key `A`.  Grammars read by the parser from ordinary examples
satisfy this; it rules out collisions between input names and the names
`leftFactor` generates. -/
def NoFactNames (g : Grammar) : Prop :=
  ∀ A ∈ keysG g, ∀ k ∈ keysG g, ¬ ((A ++ "_fact").data <+: k.data)

/-- The JavaScript whitespace class (the members that can occur in our
inputs: space, tab, newline, carriage return, vertical tab, form feed
and no-break space). -/
def isWs (c : Char) : Bool :=
  c = ' ' ∨ c = '\t' ∨ c = '\n' ∨ c = '\r' ∨
  c = Char.ofNat 11 ∨ c = Char.ofNat 12 ∨ c = Char.ofNat 160

/-- JavaScript `String.prototype.trim`. -/
def trimJS (s : Symb) : Symb :=
  ⟨((s.data.dropWhile isWs).reverse.dropWhile isWs).reverse⟩

/-- JavaScript `toLowerCase` (character-wise). -/
def lowerJS (s : Symb) : Symb := ⟨s.data.map Char.toLower⟩

/-- JavaScript `split` on a single character (keeps empty pieces). -/
def splitOnChar (c : Char) (s : Symb) : List Symb :=
  (s.data.splitOn c).map (fun l => (⟨l⟩ : Symb))

/-- JavaScript `indexOf` for a nonempty pattern. -/
def idxOfSub (pat : List Char) : List Char → Option Nat
  | [] => none
  | c :: rest =>
    if pat.isPrefixOf (c :: rest) then some 0
    else (idxOfSub pat rest).map (· + 1)

/-- JavaScript `split` on a substring pattern (all occurrences, left to
right, no overlap). -/
def splitOnSubGo (pat : List Char) : Nat → List Char → List Char →
    List Symb
  | 0, acc, rest => [⟨acc.reverse ++ rest⟩]
  | fuel + 1, acc, rest =>
    match rest with
    | [] => [⟨acc.reverse⟩]
    | c :: rest2 =>
      if pat.isPrefixOf (c :: rest2) then
        (⟨acc.reverse⟩ : Symb) ::
          splitOnSubGo pat fuel [] ((c :: rest2).drop pat.length)
      else
        splitOnSubGo pat fuel (c :: acc) rest2

/-- `String.prototype.split` with a (nonempty) string separator. -/
def splitOnSub (pat : List Char) (s : Symb) : List Symb :=
  splitOnSubGo pat (s.data.length + 1) [] s.data

/-- `split(/\s+/)` on an already-trimmed string: the whitespace-separated
words (equal to the JavaScript result because the input has no leading
or trailing whitespace). -/
def wordsWsGo : Nat → List Char → List Symb
  | 0, _ => []
  | _ + 1, [] => []
  | fuel + 1, c :: rest =>
    if isWs c then wordsWsGo fuel rest
    else
      (⟨(c :: rest).takeWhile (fun d => !(isWs d))⟩ : Symb) ::
        wordsWsGo fuel ((c :: rest).dropWhile (fun d => !(isWs d)))

/-- Whitespace-separated words. -/
def wordsWs (cs : List Char) : List Symb := wordsWsGo (cs.length + 1) cs

/-- Lexicographic code-point comparison — the JavaScript default sort
order on the (basic-plane) state-name strings. -/
def ltChars : List Char → List Char → Bool
  | [], [] => false
  | [], _ :: _ => true
  | _ :: _, [] => false
  | c :: cs, d :: ds =>
    if c.toNat < d.toNat then true
    else if d.toNat < c.toNat then false
    else ltChars cs ds

/-- Insert into a sorted list of strings (JavaScript default
`Array.prototype.sort` on distinct strings). -/
def insSorted (x : Symb) : List Symb → List Symb
  | [] => [x]
  | y :: ys => if ltChars x.data y.data then x :: y :: ys else y :: insSorted x ys

/-- Sort strings lexicographically. -/
def sortStrList (l : List Symb) : List Symb := l.foldr insSorted []

namespace Master

/-- Uppercase letter (the `[A-Z]` class of the master token regex). -/
def isUpperCh (c : Char) : Bool := 'A' ≤ c ∧ c ≤ 'Z'

/-- The `[a-z0-9]` class. -/
def isLowerDigit (c : Char) : Bool :=
  ('a' ≤ c ∧ c ≤ 'z') ∨ ('0' ≤ c ∧ c ≤ '9')

/-- The `[a-zA-Z0-9]` word class of the nonterminal-suffix group. -/
def isWordCh (c : Char) : Bool :=
  isUpperCh c ∨ ('a' ≤ c ∧ c ≤ 'z') ∨ ('0' ≤ c ∧ c ≤ '9')

/-- The single-character operator class of `TOKEN_RE`
(`(){}[]+*/\\^=,.:;<>|$!-`; the braces are written numerically). -/
def opChars : List Char :=
  ['(', ')', Char.ofNat 123, Char.ofNat 125, '[', ']', '+', '*', '/',
   '\\', '^', '=', ',', '.', ':', ';', '<', '>', '|', '$', '!', '-']

/-- The two-character operators of `TOKEN_RE`, tried before the
single-character class. -/
def twoCharOp (c d : Char) : Bool :=
  (c = '=' ∧ d = '=') ∨ (c = '!' ∧ d = '=') ∨ (c = '<' ∧ d = '=') ∨
  (c = '>' ∧ d = '=') ∨ (c = '|' ∧ d = '|') ∨ (c = '&' ∧ d = '&')

/-- Greedy scan of the nonterminal suffix `(?:_[a-zA-Z0-9]+|')*`:
returns the consumed suffix and the remaining characters. -/
def ntTail : Nat → List Char → List Char × List Char
  | 0, cs => ([], cs)
  | fuel + 1, cs =>
    match cs with
    | [] => ([], [])
    | c :: rest =>
      if c = '_' then
        let w := rest.takeWhile isWordCh
        if w = [] then ([], cs)
        else
          let t := ntTail fuel (rest.drop w.length)
          ('_' :: (w ++ t.1), t.2)
      else if c = apos then
        let t := ntTail fuel rest
        (c :: t.1, t.2)
      else ([], cs)

/-- One attempted match of `TOKEN_RE` at the current position, with the
alternation tried in the regex order (`ε`, `epsilon`, `id`, nonterminal,
`[a-z0-9]`, two-character operator, single-character operator). -/
def matchAt : List Char → Option (List Char × List Char)
  | [] => none
  | c :: rest =>
    if c = 'ε' then some (['ε'], rest)
    else if ("epsilon".data).isPrefixOf (c :: rest) then
      some ("epsilon".data, (c :: rest).drop 7)
    else if ("id".data).isPrefixOf (c :: rest) then
      some ("id".data, (c :: rest).drop 2)
    else if isUpperCh c then
      let t := ntTail rest.length rest
      some (c :: t.1, t.2)
    else if isLowerDigit c then some ([c], rest)
    else
      match rest with
      | d :: rest2 =>
        if twoCharOp c d then some ([c, d], rest2)
        else if c ∈ opChars then some ([c], rest)
        else none
      | [] => if c ∈ opChars then some ([c], rest) else none

/-- The `exec` loop over `TOKEN_RE`: take a match at the current
position or skip one character (a global regex finds the next matching
position).  Every step consumes at least one character, so the fuel
used at the call site covers the whole input. -/
def tokenScan : Nat → List Char → List Symb
  | 0, _ => []
  | _ + 1, [] => []
  | fuel + 1, c :: rest =>
    match matchAt (c :: rest) with
    | some (tok, rest2) => (⟨tok⟩ : Symb) :: tokenScan fuel rest2
    | none => tokenScan fuel rest

/-- `tokenizeRHS(alt)` of the master script (lines 46–65). -/
def tokenizeRHS (alt0 : Symb) : List Symb :=
  let alt := trimJS alt0
  if alt = "" then [eps]
  else if alt = eps ∨ lowerJS alt = "epsilon" then [eps]
  else if ' ' ∈ alt.data then wordsWs alt.data
  else
    let toks := tokenScan (alt.data.length + 1) alt.data
    if toks = [] then [eps] else toks

/-- `parseGrammar(text)` of the master script (lines 67–89): split into
trimmed nonempty lines, find the `->` (or `→`) arrow, split the
right-hand side on `|` and tokenize each alternative.  (Both arrows
advance the index by two, reproducing the source quirk of skipping one
character after a `→`.) -/
def parseGrammar (text : Symb) : Grammar :=
  let lines := ((splitOnChar (Char.ofNat 10) text).map trimJS).filter
    (fun l => l ≠ "")
  lines.foldl
    (fun prods line =>
      let idx := match idxOfSub ['-', '>'] line.data with
        | some i => some i
        | none => idxOfSub ['→'] line.data
      match idx with
      | none => prods
      | some i =>
        let lhs := trimJS ⟨line.data.take i⟩
        let rhs := trimJS ⟨line.data.drop (i + 2)⟩
        let alts := (splitOnChar '|' rhs).map trimJS
        let prods1 :=
          if (lookupG prods lhs).isSome then prods else setG prods lhs []
        alts.foldl
          (fun p alt => setG p lhs (getG p lhs [] ++ [tokenizeRHS alt]))
          prods1)
    []

/-- Join with single spaces (`rhs.join(' ')`), the key under which
`buildPredictiveTable` de-duplicates cell entries. -/
def joinSp (r : Alt) : Symb := String.intercalate " " r

/-- Append `rhs` to a cell unless an identical (by `join(' ')`)
alternative is already present (master script lines 259–264). -/
def cellPushDedup (cell : Cell) (rhs : Alt) : Cell :=
  if cell.any (fun r => joinSp r = joinSp rhs) then cell else cell ++ [rhs]

/-- Write one table cell through the dedup push. -/
def tableInsert (table : List (Symb × List (Symb × Cell))) (A t : Symb)
    (rhs : Alt) : List (Symb × List (Symb × Cell)) :=
  let row := getG table A []
  setG table A (setG row t (cellPushDedup (getG row t []) rhs))

/-- Result of the master `buildPredictiveTable` (lines 229–289). -/
structure PredTable where
  table : List (Symb × List (Symb × Cell))
  conflicts : List (Symb × Symb × Cell)
  terminals : List Symb
  deriving DecidableEq, Repr

/-- `buildPredictiveTable(prods, FIRST, FOLLOW)` of the master script.
Phase one initializes every row and collects the terminals; phase two
registers each production under the terminals of its first set (and
under FOLLOW entries when the set has epsilon), skipping exact
duplicates; phase three collects the conflicts.  (In the source the
phase-two FOLLOW iteration would throw on a missing entry; here a
missing entry reads as the empty set, which registers nothing, so every
table the source can return is covered.) -/
def buildPredictiveTable (prods : Grammar)
    (FIRST : List (Symb × List Symb)) (FOLLOW : List (Symb × List Symb)) :
    PredTable :=
  let nonterms := keysG prods
  let nontermSet := nonterms
  let init := nonterms.foldl
    (fun (acc : List (Symb × List (Symb × Cell)) × List Symb) A =>
      let table := setG acc.1 A []
      let terms := (getG prods A []).foldl
        (fun ts rhs => rhs.foldl
          (fun ts2 t =>
            if t ∉ nontermSet ∧ t ≠ eps then sadd ts2 t else ts2) ts)
        acc.2
      let terms2 :=
        match lookupG FOLLOW A with
        | some fl => fl.foldl (fun ts t => if t ≠ "$" then sadd ts t else ts)
            terms
        | none => terms
      (table, terms2))
    ([], [])
  let filled := nonterms.foldl
    (fun table A =>
      (getG prods A []).foldl
        (fun t2 rhs =>
          let fs := firstOfString rhs FIRST nontermSet
          let t3 := fs.foldl
            (fun tt t => if t ≠ eps then tableInsert tt A t rhs else tt)
            t2
          if eps ∈ fs then
            (getG FOLLOW A []).foldl
              (fun tt b => tableInsert tt A b rhs) t3
          else t3)
        table)
    init.1
  let conflicts := nonterms.foldl
    (fun cs A =>
      let row := getG filled A []
      (keysG row).foldl
        (fun cs2 t =>
          if 1 < (getG row t []).length then cs2 ++ [(A, t, getG row t [])]
          else cs2) cs)
    []
  { table := filled, conflicts := conflicts,
    terminals := sortStrList init.2 }

end Master

namespace Tools

/-- `parseGrammar(text)` of src/tools.js (lines 31–46): like the master
parser but with only the `->` arrow, a `filter(Boolean)` that drops
empty alternatives, and whitespace tokenization with `epsilon`
normalization instead of the token regex. -/
def parseGrammar (text : Symb) : Grammar :=
  let lines := ((splitOnChar (Char.ofNat 10) text).map trimJS).filter
    (fun l => l ≠ "")
  lines.foldl
    (fun prods line =>
      match idxOfSub ['-', '>'] line.data with
      | none => prods
      | some i =>
        let lhs := trimJS ⟨line.data.take i⟩
        let rhsText := trimJS ⟨line.data.drop (i + 2)⟩
        let alts := ((splitOnChar '|' rhsText).map trimJS).filter
          (fun x => x ≠ "")
        let prods1 :=
          if (lookupG prods lhs).isSome then prods else setG prods lhs []
        alts.foldl
          (fun p alt =>
            let toks :=
              if alt = "" then [eps]
              else (wordsWs alt.data).map
                (fun t => if t = "epsilon" then eps else t)
            setG p lhs
              (getG p lhs [] ++ [if toks = [] then [eps] else toks]))
          prods1)
    []

/-- One right-hand side of `computeFirst` (tools.js lines 76–87): scan
the symbols, stopping at an epsilon marker, at a terminal, or at a
nonterminal without epsilon in its set; falling off the end adds
epsilon to FIRST of the left-hand side. -/
def firstRhsScan (prods : Grammar) (A : Symb) :
    List Symb → List (Symb × List Symb) → List (Symb × List Symb)
  | [], F => setG F A (sadd (getG F A []) eps)
  | sym :: rest, F =>
    if sym = eps then setG F A (sadd (getG F A []) eps)
    else if (lookupG prods sym).isNone then
      setG F A (sadd (getG F A []) sym)
    else
      let F2 := setG F A ((getG F sym []).foldl
        (fun acc t => if t ≠ eps then sadd acc t else acc) (getG F A []))
      if eps ∈ getG F2 sym [] then firstRhsScan prods A rest F2
      else F2

/-- One pass of the `computeFirst` fixpoint loop over all productions. -/
def computeFirstPass (prods : Grammar) (F0 : List (Symb × List Symb)) :
    List (Symb × List Symb) :=
  prods.foldl
    (fun F p => p.2.foldl (fun F2 rhs => firstRhsScan prods p.1 rhs F2) F)
    F0

/-- Size of a grammar (entries plus total symbols), used to bound the
fixpoint loops: each non-final pass adds at least one element, and at
most (size + 2) candidate symbols can enter each of at most size sets. -/
def grammarSize (g : Grammar) : Nat :=
  g.foldl (fun n p => n + 1 + p.2.foldl (fun m r => m + r.length) 0) 0

/-- The `while (changed)` loop of `computeFirst`, as repeated passes up
to a fixpoint. -/
def computeFirstLoop (prods : Grammar) :
    Nat → List (Symb × List Symb) → List (Symb × List Symb)
  | 0, F => F
  | fuel + 1, F =>
    let F2 := computeFirstPass prods F
    if F2 = F then F else computeFirstLoop prods fuel F2

/-- `computeFirst(prods)` of src/tools.js (lines 71–91). -/
def computeFirst (prods : Grammar) : List (Symb × List Symb) :=
  let init := (keysG prods).foldl (fun F A => setG F A []) []
  computeFirstLoop prods ((grammarSize prods + 2) * (grammarSize prods + 2))
    init

/-- The inner `j` loop of `computeFollow` (tools.js lines 101–108):
FIRST of the suffix after a nonterminal occurrence, with the
beta-nullable flag. -/
def betaScan (prods : Grammar) (F : List (Symb × List Symb)) :
    List Symb → List Symb → List Symb × Bool
  | [], fb => (fb, true)
  | s :: rest, fb =>
    if s = eps then (sadd fb eps, true)
    else if (lookupG prods s).isNone then (sadd fb s, false)
    else
      let fb2 := (getG F s []).foldl
        (fun acc t => if t ≠ eps then sadd acc t else acc) fb
      if eps ∈ getG F s [] then betaScan prods F rest fb2
      else (fb2, false)

/-- One position `i` of one right-hand side in `computeFollow`
(tools.js lines 98–112). -/
def followPos (prods : Grammar) (F : List (Symb × List Symb)) (A : Symb)
    (rhs : List Symb) (FL0 : List (Symb × List Symb)) (i : Nat) :
    List (Symb × List Symb) :=
  let B := rhs.getD i ""
  if (lookupG prods B).isNone then FL0
  else
    let sc := betaScan prods F (rhs.drop (i + 1)) []
    let bn := if i = rhs.length - 1 then true else sc.2
    let FL1 := sc.1.foldl
      (fun FL t =>
        if t ≠ eps then setG FL B (sadd (getG FL B []) t) else FL)
      FL0
    if bn then
      (getG FL1 A []).foldl
        (fun FL t => setG FL B (sadd (getG FL B []) t)) FL1
    else FL1

/-- One pass of the `computeFollow` fixpoint loop. -/
def computeFollowPass (prods : Grammar) (F : List (Symb × List Symb))
    (FL0 : List (Symb × List Symb)) : List (Symb × List Symb) :=
  prods.foldl
    (fun FL p =>
      p.2.foldl
        (fun FL2 rhs =>
          (List.range rhs.length).foldl (followPos prods F p.1 rhs) FL2)
        FL)
    FL0

/-- The `while (changed)` loop of `computeFollow`. -/
def computeFollowLoop (prods : Grammar) (F : List (Symb × List Symb)) :
    Nat → List (Symb × List Symb) → List (Symb × List Symb)
  | 0, FL => FL
  | fuel + 1, FL =>
    let FL2 := computeFollowPass prods F FL
    if FL2 = FL then FL else computeFollowLoop prods F fuel FL2

/-- `computeFollow(prods, FIRST, start)` of src/tools.js (lines
92–120). -/
def computeFollow (prods : Grammar) (F : List (Symb × List Symb))
    (start : Symb) : List (Symb × List Symb) :=
  let init := (keysG prods).foldl (fun FL A => setG FL A []) []
  let init2 := setG init start (sadd (getG init start []) "$")
  computeFollowLoop prods F
    ((grammarSize prods + 2) * (grammarSize prods + 2)) init2

/-- `computeFirstOfString(rhs, FIRST, prods)` of src/tools.js (lines
204–213); the scan part, returning the set and the nullable flag. -/
def computeFirstOfStringGo (F : List (Symb × List Symb)) (prods : Grammar) :
    List Symb → List Symb → List Symb × Bool
  | [], res => (res, true)
  | sym :: rest, res =>
    if sym = eps then (sadd res eps, true)
    else if (lookupG prods sym).isNone then (sadd res sym, false)
    else
      let fs := getG F sym []
      let res2 := fs.foldl
        (fun acc t => if t ≠ eps then sadd acc t else acc) res
      if eps ∈ fs then computeFirstOfStringGo F prods rest res2
      else (res2, false)

/-- `computeFirstOfString` with the final nullable epsilon add. -/
def computeFirstOfString (rhs : List Symb) (F : List (Symb × List Symb))
    (prods : Grammar) : List Symb :=
  let out := computeFirstOfStringGo F prods rhs []
  if out.2 then sadd out.1 eps else out.1

/-- Unconditional cell push of the tools.js table builder (no duplicate
check). -/
def tableInsertDup (table : List (Symb × List (Symb × Cell))) (A t : Symb)
    (rhs : Alt) : List (Symb × List (Symb × Cell)) :=
  let row := getG table A []
  setG table A (setG row t (getG row t [] ++ [rhs]))

/-- `buildPredictiveTable(prods, FIRST, FOLLOW)` of src/tools.js (lines
214–226): registers each production under FIRST of its right-hand side
(and FOLLOW on epsilon) by plain push, then collects cells with more
than one entry as conflicts. -/
def buildPredictiveTable (prods : Grammar) (F : List (Symb × List Symb))
    (FOLLOW : List (Symb × List Symb)) :
    List (Symb × List (Symb × Cell)) × List (Symb × Symb × Cell) :=
  let table0 := (keysG prods).foldl (fun t A => setG t A []) []
  let filled := prods.foldl
    (fun t p =>
      p.2.foldl
        (fun t2 rhs =>
          let fs := computeFirstOfString rhs F prods
          let t3 := fs.foldl
            (fun tt x => if x ≠ eps then tableInsertDup tt p.1 x rhs else tt)
            t2
          if eps ∈ fs then
            (getG FOLLOW p.1 []).foldl
              (fun tt b => tableInsertDup tt p.1 b rhs) t3
          else t3)
        t)
    table0
  let conflicts := filled.foldl
    (fun cs rowp => rowp.2.foldl
      (fun cs2 cellp =>
        if 1 < cellp.2.length then cs2 ++ [(rowp.1, cellp.1, cellp.2)]
        else cs2) cs)
    []
  (filled, conflicts)

end Tools

namespace Master

/-- Result of `parseNFACombined`: states, alphabet, start, accepting
states, and transitions as state → symbol → destination set. -/
structure NFA where
  states : List Symb
  alphabet : List Symb
  start : Symb
  accepts : List Symb
  transitions : List (Symb × List (Symb × List Symb))
  deriving DecidableEq, Repr

/-- The mutable parsing state of `parseNFACombined` (master script
lines 868–956): the accumulating sets, the declared states list, the
start state (empty string for the source null) and the
inside-transitions flag. -/
structure ParseStateN where
  stateSet : List Symb
  acceptSet : List Symb
  alphaSet : List Symb
  transitions : List (Symb × List (Symb × List Symb))
  statesList : List Symb
  start : Symb
  inTrans : Bool
  deriving DecidableEq, Repr

/-- Case-insensitive prefix removal (for the `/^label\s*:/i` tests);
the label is given in lowercase. -/
def dropPrefixCI : List Char → List Char → Option (List Char)
  | [], cs => some cs
  | _, [] => none
  | l :: ls, c :: cs => if c.toLower = l then dropPrefixCI ls cs else none

/-- Test for `/^label\s*:/i` on a line. -/
def isLabeled (label : List Char) (line : List Char) : Bool :=
  match dropPrefixCI label line with
  | some restc =>
    match restc.dropWhile isWs with
    | ':' :: _ => true
    | _ => false
  | none => false

/-- `line.split(':')[1]` (defaults to the empty string, though every
labeled line has a colon). -/
def afterColon (line : Symb) : Symb := (splitOnChar ':' line).getD 1 ""

/-- Comma-split, trim, drop empties — the common treatment of the
States, Alphabet and Accept payloads and of destination lists. -/
def commaItems (s : Symb) : List Symb :=
  ((splitOnChar ',' s).map trimJS).filter (fun x => x ≠ "")

/-- The States line (master script lines 884–891): replace the declared
list and add its entries to the state set. -/
def parseStatesLine (st : ParseStateN) (line : Symb) : ParseStateN :=
  let entries := commaItems (afterColon line)
  { st with
    statesList := entries,
    stateSet := saddAll st.stateSet entries }

/-- The Alphabet line (lines 892–903): add the non-epsilon symbols. -/
def parseAlphaLine (st : ParseStateN) (line : Symb) : ParseStateN :=
  let parts := commaItems (afterColon line)
  { st with alphaSet := (parts.foldl
      (fun a sym =>
        if lowerJS sym ≠ "epsilon" ∧ sym ≠ eps then sadd a sym else a)
      st.alphaSet) }

/-- The Start line (lines 904–908): record the start state, adding it
to the state set when nonempty. -/
def parseStartLine (st : ParseStateN) (line : Symb) : ParseStateN :=
  let s0 := trimJS (afterColon line)
  { st with
    start := s0,
    stateSet := if s0 ≠ "" then sadd st.stateSet s0 else st.stateSet }

/-- The Accept line (lines 909–919): entries enter both the accepting
set and the state set. -/
def parseAcceptLine (st : ParseStateN) (line : Symb) : ParseStateN :=
  let entries := commaItems (afterColon line)
  { st with
    acceptSet := saddAll st.acceptSet entries,
    stateSet := saddAll st.stateSet entries }

/-- Record one transition (lines 948–955): source and destinations
enter the state set and the destination set of the (source, symbol)
cell grows. -/
def recordTransition (st : ParseStateN) (from2 sym : Symb)
    (dests : List Symb) : ParseStateN :=
  let row := getG st.transitions from2 []
  { st with
    stateSet := saddAll (sadd st.stateSet from2) dests,
    transitions := setG st.transitions from2
      (setG row sym (saddAll (getG row sym []) dests)) }

/-- A transition body line `q0,a->q1,q2` (lines 925–955), with the
malformed-line early exits and the epsilon normalization (which skips
the alphabet add). -/
def parseTransLine (st : ParseStateN) (line : Symb) : ParseStateN :=
  let parts := splitOnSub ['-', '>'] line
  if parts.length ≠ 2 then st
  else
    let left := splitOnChar ',' (parts.getD 0 "")
    if left.length ≠ 2 then st
    else
      let from2 := trimJS (left.getD 0 "")
      let sym0 := trimJS (left.getD 1 "")
      if from2 = "" ∨ sym0 = "" then st
      else
        let isEps := lowerJS sym0 = "epsilon" ∨ sym0 = eps
        let sym := if isEps then eps else sym0
        let st2 :=
          { st with alphaSet :=
              if isEps then st.alphaSet else sadd st.alphaSet sym0 }
        let dests := commaItems (parts.getD 1 "")
        if dests = [] then st2
        else recordTransition st2 from2 sym dests

/-- One line of the `parseNFACombined` loop (master script lines
883–956), dispatching on the labeled-line tests in source order. -/
def parseNFALine (st : ParseStateN) (line : Symb) : ParseStateN :=
  if isLabeled "states".data line.data then parseStatesLine st line
  else if isLabeled "alphabet".data line.data then parseAlphaLine st line
  else if isLabeled "start".data line.data then parseStartLine st line
  else if isLabeled "accept".data line.data then parseAcceptLine st line
  else if isLabeled "transitions".data line.data then
    { st with inTrans := true }
  else if st.inTrans then parseTransLine st line
  else st

/-- The folded parsing state of `parseNFACombined` on an input text. -/
def parseNFAState (text : Symb) : ParseStateN :=
  let lines := ((splitOnChar (Char.ofNat 10) text).map trimJS).filter
    (fun l => l ≠ "")
  lines.foldl parseNFALine ⟨[], [], [], [], [], "", false⟩

/-- `parseNFACombined(text)` of the master script (lines 868–980). -/
def parseNFACombined (text : Symb) : Except Symb NFA :=
  let st := parseNFAState text
  let statesList :=
    if st.statesList = [] ∧ st.stateSet ≠ [] then st.stateSet
    else st.statesList
  if statesList = [] then
    .error "No states found. Please add \"States: ...\""
  else
    let start := if st.start = "" then statesList.headD "" else st.start
    .ok ⟨statesList, st.alphaSet, start, st.acceptSet, st.transitions⟩

/-- A deterministic automaton as handled by the DFA passes: transitions
map a state and a symbol to one destination. -/
structure DFA where
  states : List Symb
  alphabet : List Symb
  start : Symb
  accepts : List Symb
  transitions : List (Symb × List (Symb × Symb))
  deriving DecidableEq, Repr

/-- Total number of transition entries, bounding the reachability
worklist: every push adds a previously unseen destination of some
entry, so pops are at most one more than that. -/
def transCount (dfa : DFA) : Nat :=
  dfa.transitions.foldl (fun n p => n + p.2.length) 0

/-- The worklist loop of `removeUnreachableDFACombined` (master script
lines 1129–1140); the stack pops from the head. -/
def reachDFALoop (dfa : DFA) : Nat → List Symb → List Symb → List Symb
  | 0, reachable, _ => reachable
  | _ + 1, reachable, [] => reachable
  | fuel + 1, reachable, s :: stack =>
    let step := dfa.alphabet.foldl
      (fun (acc : List Symb × List Symb) a =>
        let tgt := getG (getG dfa.transitions s []) a ""
        if tgt ≠ "" ∧ tgt ∉ acc.1 then (acc.1 ++ [tgt], tgt :: acc.2)
        else acc)
      (reachable, stack)
    reachDFALoop dfa fuel step.1 step.2

/-- `removeUnreachableDFACombined(dfa)` of the master script (lines
1120–1162). -/
def removeUnreachableDFACombined (dfa : DFA) : DFA :=
  if dfa.start = "" then dfa
  else
    let reachable :=
      reachDFALoop dfa (transCount dfa + 2) [dfa.start] [dfa.start]
    let newStates := dfa.states.filter (fun s => decide (s ∈ reachable))
    let newAccepts := dfa.accepts.filter (fun s => decide (s ∈ reachable))
    let newTrans := newStates.foldl
      (fun nt s =>
        let tOld := getG dfa.transitions s []
        let row := dfa.alphabet.foldl
          (fun r a =>
            let tgt := getG tOld a ""
            if tgt ≠ "" ∧ tgt ∈ reachable then setG r a tgt else r)
          []
        setG nt s row)
      []
    ⟨newStates, dfa.alphabet, dfa.start, newAccepts, newTrans⟩

/-- `blockIndex(st, blocks)` of the minimizer: index of the block
containing the state, `-1` when absent. -/
def blockIndexGo (s : Symb) : Nat → List (List Symb) → Int
  | _, [] => -1
  | i, b :: rest => if s ∈ b then Int.ofNat i else blockIndexGo s (i + 1) rest

/-- `blockIndex` from index zero. -/
def blockIndex (s : Symb) (blocks : List (List Symb)) : Int :=
  blockIndexGo s 0 blocks

/-- The signature string of a state under the current partition
(master script lines 1201–1207): `a:idx;` for each alphabet symbol. -/
def sigOf (dfa : DFA) (P : List (List Symb)) (s : Symb) : Symb :=
  dfa.alphabet.foldl
    (fun sig a =>
      let tgt := getG (getG dfa.transitions s []) a ""
      let idx : Int := if tgt = "" then -1 else blockIndex tgt P
      sig ++ a ++ ":" ++ toString idx ++ ";")
    ""

/-- Group the members of a block by signature (insertion-ordered map of
insertion-ordered sets). -/
def sigGroups (dfa : DFA) (P : List (List Symb)) (block : List Symb) :
    List (Symb × List Symb) :=
  block.foldl
    (fun gs s =>
      let sig := sigOf dfa P s
      match lookupG gs sig with
      | some g => setG gs sig (sadd g s)
      | none => gs ++ [(sig, [s])])
    []

/-- One pass of the refinement loop: split each multi-member block by
signature, flagging whether any block split. -/
def refineStep (dfa : DFA) (P : List (List Symb)) :
    List (List Symb) × Bool :=
  P.foldl
    (fun (acc : List (List Symb) × Bool) block =>
      if block.length ≤ 1 then (acc.1 ++ [block], acc.2)
      else
        let gs := sigGroups dfa P block
        if gs.length = 1 then (acc.1 ++ [block], acc.2)
        else (acc.1 ++ gs.map Prod.snd, true))
    ([], false)

/-- The `while (changed)` refinement loop; every changing pass adds at
least one block and the block count never exceeds the state count, so
the fuel used at the call site covers every input. -/
def refineLoop (dfa : DFA) : Nat → List (List Symb) → List (List Symb)
  | 0, P => P
  | fuel + 1, P =>
    let st := refineStep dfa P
    if st.2 then refineLoop dfa fuel st.1 else P

/-- `minimizeDFACombined(dfa0)` of the master script (lines 1165–1262):
remove unreachable states, refine the accepting/non-accepting partition
to a fixpoint, then rebuild the automaton with comma-joined sorted
block names.  The accepting states of the result are the block names
with a comma-split part in the old accepting set. -/
def minimizeDFACombined (dfa0 : DFA) : Except Symb DFA :=
  let dfa := removeUnreachableDFACombined dfa0
  if dfa.states = [] then .error "DFA has no states."
  else
    let finals := dfa.states.filter (fun s => decide (s ∈ dfa.accepts))
    let nonFinals := dfa.states.filter (fun s => decide (s ∉ dfa.accepts))
    let P0 := (if finals ≠ [] then [saddAll [] finals] else []) ++
      (if nonFinals ≠ [] then [saddAll [] nonFinals] else [])
    if P0 = [] then .error "No partition could be formed."
    else
      let P := refineLoop dfa (dfa.states.length + 1) P0
      let className := P.foldl
        (fun cn block =>
          let arr := sortStrList block
          let name := String.intercalate "," arr
          arr.foldl (fun cn2 s => setG cn2 s name) cn)
        []
      let newStates := P.map
        (fun block => String.intercalate "," (sortStrList block))
      let newStart := getG className dfa.start ""
      let newAccepts := newStates.foldl
        (fun na name =>
          let parts := splitOnChar ',' name
          if parts.any (fun s => decide (s ∈ dfa.accepts)) then sadd na name
          else na)
        []
      let newTrans := P.foldl
        (fun nt block =>
          let rep := block.headD ""
          let repName := getG className rep ""
          let row := dfa.alphabet.foldl
            (fun r a =>
              let tgt := getG (getG dfa.transitions rep []) a ""
              if tgt ≠ "" then setG r a (getG className tgt "") else r)
            []
          setG nt repName row)
        []
      .ok ⟨newStates, dfa.alphabet, newStart, newAccepts, newTrans⟩

end Master

/-- Total number of states over the blocks of a partition (a proof
device for bounding the block count). -/
def sumLen (P : List (List Symb)) : Nat :=
  P.foldr (fun b n => b.length + n) 0

/-- A grammar with the same production written twice, parsed by the
tools.js parser: `A -> a` on two lines. -/
def gDup : Grammar := Tools.parseGrammar "A -> a\nA -> a"

/-- FIRST sets of `gDup` as tools.js computes them. -/
def FDup : List (Symb × List Symb) := Tools.computeFirst gDup

/-- FOLLOW sets of `gDup` as tools.js computes them (start symbol A). -/
def FLDup : List (Symb × List Symb) :=
  Tools.computeFollow gDup FDup "A"

/-- Every cell of a predictive table is duplicate-free under the
`join(' ')` key that the master builder compares with. -/
def CellsOK (table : List (Symb × List (Symb × Cell))) : Prop :=
  ∀ A t : Symb, (getG (getG table A []) t []).Pairwise
    (fun r s => Master.joinSp r ≠ Master.joinSp s)

/-- Invariant of the NFA parsing state: every state mentioned so far
(accepting, start, or a transition endpoint) is in the accumulated
state set. -/
def NFAInv (st : Master.ParseStateN) : Prop :=
  (∀ q ∈ st.acceptSet, q ∈ st.stateSet) ∧
  (st.start ≠ "" → st.start ∈ st.stateSet) ∧
  (∀ p ∈ st.transitions, p.1 ∈ st.stateSet ∧
    ∀ c ∈ p.2, ∀ q ∈ c.2, q ∈ st.stateSet)

/-- An automaton description whose States line omits the state q1 that
the Accept line and a transition mention. -/
def tEx7 : Symb :=
  "States: q0\nStart: q0\nAccept: q1\nTransitions:\nq0,a->q1"

/-- The automaton the parser returns for `tEx7`. -/
def nfa7 : Master.NFA :=
  ⟨["q0"], ["a"], "q0", ["q1"], [("q0", [("a", ["q1"])])]⟩

/-- The same description without the States line. -/
def tEx7b : Symb := "Start: q0\nAccept: q1\nTransitions:\nq0,a->q1"

/-- The automaton the parser returns for `tEx7b`. -/
def nfa7b : Master.NFA :=
  ⟨["q0", "q1"], ["a"], "q0", ["q1"], [("q0", [("a", ["q1"])])]⟩

/-- A three-state DFA over one letter: q0 → q1 → q2 → q2 with q1 and
q2 accepting. -/
def d8 : Master.DFA :=
  { states := ["q0", "q1", "q2"], alphabet := ["a"], start := "q0",
    accepts := ["q1", "q2"],
    transitions := [("q0", [("a", "q1")]), ("q1", [("a", "q2")]),
      ("q2", [("a", "q2")])] }

/-- The minimized form of `d8`: q1 and q2 merge into the block named
`q1,q2`, which is accepting. -/
def m8 : Master.DFA :=
  { states := ["q1,q2", "q0"], alphabet := ["a"], start := "q0",
    accepts := ["q1,q2"],
    transitions := [("q1,q2", [("a", "q1,q2")]), ("q0", [("a", "q1,q2")])] }

/-- The result of minimizing `m8` again: acceptance is lost because the
accept check splits the merged name `q1,q2` back into parts. -/
def m8x : Master.DFA :=
  { states := ["q1,q2", "q0"], alphabet := ["a"], start := "q0",
    accepts := [],
    transitions := [("q1,q2", [("a", "q1,q2")]), ("q0", [("a", "q1,q2")])] }

/-- A one-state accepting DFA. -/
def dW : Master.DFA :=
  { states := ["s"], alphabet := [], start := "s", accepts := ["s"],
    transitions := [] }

/-- The minimized form of `dW`. -/
def mW : Master.DFA :=
  { states := ["s"], alphabet := [], start := "s", accepts := ["s"],
    transitions := [("s", [])] }

/-- Parsed-grammar invariant: every recorded cell is a nonempty list of
nonempty token sequences. -/
def GoodProds (prods : Grammar) : Prop :=
  ∀ A c, lookupG prods A = some c → c ≠ [] ∧ ∀ r ∈ c, r ≠ []

/-! ## Definitions end here; the remainder of the file is theorems. -/


theorem lookupG_setG_self {α : Type} (m : List (Symb × α)) (k : Symb) (v : α) :
    lookupG (setG m k v) k = some v := by
  induction m with
  | nil => simp [setG, lookupG]
  | cons p rest ih =>
    by_cases h : p.1 = k
    · simp [setG, h, lookupG]
    · simp [setG, h, lookupG, ih]

theorem lookupG_setG_ne {α : Type} (m : List (Symb × α)) (k k' : Symb) (v : α)
    (h : k ≠ k') : lookupG (setG m k v) k' = lookupG m k' := by
  induction m with
  | nil => simp [setG, lookupG, h]
  | cons p rest ih =>
    by_cases hp : p.1 = k
    · simp [setG, hp, lookupG, h]
    · simp only [setG, hp, if_false, lookupG]
      by_cases hq : p.1 = k'
      · simp [hq]
      · simp [hq, ih]

theorem mem_sadd {α : Type} [DecidableEq α] (s : List α) (x y : α) :
    y ∈ sadd s x ↔ y ∈ s ∨ y = x := by
  unfold sadd
  by_cases h : x ∈ s
  · simp only [h, if_true]
    constructor
    · exact Or.inl
    · rintro (hy | rfl)
      · exact hy
      · exact h
  · simp [h]

theorem sadd_subset {α : Type} [DecidableEq α] (s : List α) (x : α) :
    s ⊆ sadd s x := by
  intro y hy
  exact (mem_sadd s x y).2 (Or.inl hy)

theorem mem_sadd_self {α : Type} [DecidableEq α] (s : List α) (x : α) :
    x ∈ sadd s x := (mem_sadd s x x).2 (Or.inr rfl)

theorem length_sadd_le {α : Type} [DecidableEq α] (s : List α) (x : α) :
    (sadd s x).length ≤ s.length + 1 := by
  unfold sadd
  by_cases h : x ∈ s <;> simp [h]

/-- Inner token fold of the `used` collection: only defined symbols are
added. -/
theorem used_fold_tokens (defined : List Symb) (rhs : List Symb) :
    ∀ u0, (∀ x ∈ u0, x ∈ defined) →
      ∀ x ∈ rhs.foldl
        (fun u3 t => if t ∈ defined then sadd u3 t else u3) u0,
        x ∈ defined := by
  induction rhs with
  | nil => intro u0 h0; simpa using h0
  | cons t ts ih =>
    intro u0 h0 x hx
    refine ih _ ?_ x hx
    intro w hw
    by_cases ht : t ∈ defined
    · simp only [ht, if_true] at hw
      rcases (mem_sadd _ _ _).1 hw with h | rfl
      · exact h0 w h
      · exact ht
    · simp only [ht, if_false] at hw
      exact h0 w hw

/-- Alternative-level fold of the `used` collection. -/
theorem used_fold_alts (defined : List Symb) (rhss : Cell) :
    ∀ u0, (∀ x ∈ u0, x ∈ defined) →
      ∀ x ∈ rhss.foldl
        (fun u2 rhs => rhs.foldl
          (fun u3 t => if t ∈ defined then sadd u3 t else u3) u2) u0,
        x ∈ defined := by
  induction rhss with
  | nil => intro u0 h0; simpa using h0
  | cons rhs rest ih =>
    intro u0 h0 x hx
    exact ih _ (used_fold_tokens defined rhs u0 h0) x hx

/-- Every symbol collected into the `used` set of `validateGrammar` was
admitted by the `defined.has(t)` test. -/
theorem validate_used_subset (prods : Grammar) (defined : List Symb) :
    ∀ u0, (∀ x ∈ u0, x ∈ defined) →
      ∀ x ∈ prods.foldl
        (fun u p => p.2.foldl
          (fun u2 rhs => rhs.foldl
            (fun u3 t => if t ∈ defined then sadd u3 t else u3) u2) u) u0,
        x ∈ defined := by
  induction prods with
  | nil => intro u0 h0; simpa using h0
  | cons p rest ih =>
    intro u0 h0 x hx
    exact ih _ (used_fold_alts defined p.2 u0 h0) x hx

/-- Claim C9 (confirmed).  For every input grammar the `undefinedNT`
list returned by `validateGrammar` is empty: a symbol enters the `used`
set only if it passes the `defined.has` test, so `used minus defined`
cannot be inhabited. -/
theorem C9_undefinedNT_empty (prods : Grammar) :
    (Master.validateGrammar prods).undefinedNT = [] := by
  unfold Master.validateGrammar
  simp only
  rw [List.filter_eq_nil_iff]
  intro a ha
  have := validate_used_subset prods (saddAll [] (keysG prods)) []
    (by intro x hx; simp at hx) _ ha
  simp [this]
/-- Claim C1 (counterexample).  In the master script, a sequence whose
first symbol is the epsilon marker does not stop the scan: on
`[ε, a]` the result is `[a]`; it does not contain epsilon, and the
terminal after the marker did contribute. -/
theorem C1_counterexample :
    Master.firstOfString [eps, "a"] [] [] = ["a"] ∧
      eps ∉ Master.firstOfString [eps, "a"] [] [] := by
  constructor
  · rfl
  · decide

/-- Claim C1 (amended).  The master `firstOfString` skips an epsilon
marker and keeps scanning (the result on `ε :: rest` equals the result on
`rest`); the `src/js/tools.js` variant behaves as the claim states: an
epsilon marker contributes epsilon and stops, and in both variants a
terminal contributes itself and stops the scan. -/
theorem C1_amended :
    (∀ rest FIRST nts, Master.firstOfString (eps :: rest) FIRST nts =
        Master.firstOfString rest FIRST nts) ∧
    (∀ rest FIRST nts, Js.firstOfString (eps :: rest) FIRST nts = [eps]) ∧
    (∀ (t : Symb) rest FIRST nts, t ∉ nts → t ≠ eps → t ≠ "epsilon" →
        Master.firstOfString (t :: rest) FIRST nts = [t] ∧
        Js.firstOfString (t :: rest) FIRST nts = [t]) := by
  refine ⟨?_, ?_, ?_⟩
  · intro rest FIRST nts
    simp [Master.firstOfString, Master.firstOfStringGo]
  · intro rest FIRST nts
    simp [Js.firstOfString, Js.firstOfStringGo, sadd, eps]
  · intro t rest FIRST nts hnt hne hne2
    have hne3 : t ≠ "ε" := hne
    constructor
    · simp [Master.firstOfString, Master.firstOfStringGo, hnt, hne, hne2, sadd]
    · simp [Js.firstOfString, Js.firstOfStringGo, hnt, hne3, sadd, eps]

/-- Claim C1 (witness): the amended statement applied at the concrete
terminal `x` and sequence `[x, y]`. -/
theorem C1_witness :
    Master.firstOfString ["x", "y"] [] [] = ["x"] ∧
      Js.firstOfString ["x", "y"] [] [] = ["x"] :=
  C1_amended.2.2 "x" ["y"] [] [] (by decide) (by decide) (by decide)

theorem lookupG_eq_none_of_notin {α : Type} (m : List (Symb × α)) (k : Symb)
    (h : k ∉ keysG m) : lookupG m k = none := by
  induction m with
  | nil => rfl
  | cons p rest ih =>
    have hne : p.1 ≠ k := by
      intro he
      exact h (by simp [keysG, he])
    simp only [lookupG, hne, if_false]
    exact ih (by intro hm; exact h (by simp [keysG] at hm ⊢; exact Or.inr hm))

theorem setG_eq_of_lookup {α : Type} (m : List (Symb × α)) (k : Symb) (v : α)
    (h : lookupG m k = some v) : setG m k v = m := by
  induction m with
  | nil => simp [lookupG] at h
  | cons p rest ih =>
    obtain ⟨a, b⟩ := p
    by_cases hp : a = k
    · simp only [lookupG, hp, if_true, Option.some.injEq] at h
      simp [setG, hp, h]
    · simp only [lookupG, hp, if_false] at h
      simp [setG, hp, ih h]

theorem keysG_setG_mem {α : Type} (m : List (Symb × α)) (k : Symb) (v : α)
    (h : k ∈ keysG m) : keysG (setG m k v) = keysG m := by
  induction m with
  | nil => simp [keysG] at h
  | cons p rest ih =>
    obtain ⟨a, b⟩ := p
    by_cases hp : a = k
    · simp [setG, hp, keysG]
    · have hr : k ∈ keysG rest := by
        simp [keysG] at h ⊢
        rcases h with h | h
        · exact absurd h.symm hp
        · exact h
      have hih := ih hr
      simp only [keysG] at hih
      simp [setG, hp, keysG, hih]

theorem keysG_setG_notin {α : Type} (m : List (Symb × α)) (k : Symb) (v : α)
    (h : k ∉ keysG m) : keysG (setG m k v) = keysG m ++ [k] := by
  induction m with
  | nil => simp [setG, keysG]
  | cons p rest ih =>
    obtain ⟨a, b⟩ := p
    have hp : a ≠ k := by
      intro he; exact h (by simp [keysG, he])
    have hr : k ∉ keysG rest := by
      intro hm; exact h (by simp [keysG] at hm ⊢; exact Or.inr hm)
    have hih := ih hr
    simp only [keysG] at hih
    simp [setG, hp, keysG, hih]

theorem nameA_succ (i : Nat) : nameA (i + 1) = nameA i ++ Master.aposS := by
  show String.mk ('A' :: List.replicate (i + 1) Master.apos) =
    String.mk ('A' :: List.replicate i Master.apos) ++
      String.mk [Master.apos]
  rw [List.replicate_succ' i Master.apos]
  rfl

theorem nameA_inj {i j : Nat} (h : nameA i = nameA j) : i = j := by
  have hd : ('A' :: List.replicate i Master.apos).length =
      ('A' :: List.replicate j Master.apos).length :=
    congrArg (fun s => s.data.length) h
  simpa using hd

theorem nameA_ne_eps (i : Nat) : nameA i ≠ eps := by
  intro h
  have hh : ('A' :: List.replicate i Master.apos).head? = (eps.data).head? :=
    congrArg (fun s => s.data.head?) h
  have : (eps.data).head? = some 'ε' := rfl
  rw [this] at hh
  simp at hh

theorem nameA_succ_notin (i : Nat) :
    nameA (i + 1) ∉ (List.range (i + 1)).map nameA := by
  intro hmem
  rcases List.mem_map.1 hmem with ⟨j, hj, he⟩
  have hji := nameA_inj he
  have := List.mem_range.1 hj
  omega

/-- The alternative-rewriting fold of `substStep` keeps every
alternative whose head is not `Aj`. -/
theorem substStep_fold_id (B : Symb) (repl : Alt → Cell) (cell : Cell)
    (hhead : ∀ rhs ∈ cell, rhs.head? ≠ some B) :
    ∀ init : Cell,
      cell.foldl
        (fun acc rhs =>
          if rhs.head? = some B then acc ++ repl rhs
          else acc ++ [rhs]) init = init ++ cell := by
  induction cell with
  | nil => intro init; simp
  | cons r rs ih =>
    intro init
    have hr : r.head? ≠ some B := hhead r (by simp)
    simp only [List.foldl_cons, hr, if_false]
    rw [ih (fun rhs hm => hhead rhs (by simp [hm])) (init ++ [r])]
    simp

/-- `substStep` leaves the grammar unchanged when no alternative of `Ai`
begins with `Aj`. -/
theorem substStep_id (Ai B : Symb) (prods : Grammar) (cell : Cell)
    (hcell : lookupG prods Ai = some cell)
    (hhead : ∀ rhs ∈ cell, rhs.head? ≠ some B) :
    Master.substStep Ai B prods = prods := by
  unfold Master.substStep
  have hg : getG prods Ai [] = cell := by simp [getG, hcell]
  rw [hg]
  rw [substStep_fold_id B
    (fun rhs => (getG prods B []).map (fun delta =>
      let ed := if delta = [eps] then [] else delta
      let combined := ed ++ rhs.tail
      if combined = [] then [eps] else combined)) cell hhead []]
  simp only [List.nil_append]
  exact setG_eq_of_lookup prods Ai cell hcell

/-- The whole substitution phase is the identity when no alternative of
`Ai` begins with any of the earlier nonterminals. -/
theorem elimSubstPhase_id (Ai : Symb) (earlier : List Symb)
    (prods : Grammar) (cell : Cell) (hcell : lookupG prods Ai = some cell)
    (hhead : ∀ B ∈ earlier, ∀ rhs ∈ cell, rhs.head? ≠ some B) :
    Master.elimSubstPhase Ai earlier prods = prods := by
  unfold Master.elimSubstPhase
  induction earlier with
  | nil => rfl
  | cons B bs ih =>
    simp only [List.foldl_cons]
    rw [substStep_id Ai B prods cell hcell (hhead B (by simp))]
    exact ih (fun B2 hB2 rhs hr => hhead B2 (by simp [hB2]) rhs hr)

/-- `elimAlphas` on the self-recursive pair of alternatives. -/
theorem elimAlphas_pair (A : Symb) (hA : A ≠ eps) :
    Master.elimAlphas A [[A], [eps]] = [[eps]] := by
  have h2 : ¬ (some eps = some A) := by
    intro h; exact hA (Option.some.inj h).symm
  simp [Master.elimAlphas, h2]

/-- `elimBetas` on the self-recursive pair of alternatives. -/
theorem elimBetas_pair (A : Symb) (hA : A ≠ eps) :
    Master.elimBetas A [[A], [eps]] = [[eps]] := by
  have h2 : ¬ (some eps = some A) := by
    intro h; exact hA (Option.some.inj h).symm
  simp [Master.elimBetas, h2]

/-- When the first candidate primed name is unused, `freshPrime`
returns it. -/
theorem freshPrime_first (prods : Grammar) (A : Symb)
    (h : lookupG prods (A ++ Master.aposS) = none) :
    Master.freshPrime prods A = A ++ Master.aposS := by
  unfold Master.freshPrime
  show Master.freshPrimeGo prods (prods.length + 1) (A ++ Master.aposS) = _
  unfold Master.freshPrimeGo
  simp [h]

/-- One outer iteration of `eliminateLeftRecursion`, run from a state
satisfying `ElimInv i`, reaches the state `ElimInv (i+1)`: the newest
primed nonterminal always has immediate left recursion, so a fresh prime
is appended to the enumeration every time. -/
theorem elimStep_inv (i : Nat) (nts : List Symb) (prods : Grammar)
    (h : ElimInv i nts prods) :
    ElimInv (i + 1) (Master.elimStep i nts prods).1
      (Master.elimStep i nts prods).2 := by
  obtain ⟨hnts, hkeys, hcell⟩ := h
  have hlen : nts.length = i + 1 := by rw [hnts]; simp
  have hAi : nts.getD i "" = nameA i := by
    rw [List.getD_eq_getElem?_getD, hnts]
    simp
  have hsub : Master.elimSubstPhase (nts.getD i "")
      ((List.range i).map (fun j => nts.getD j "")) prods = prods := by
    rw [hAi]
    refine elimSubstPhase_id (nameA i) _ prods [[nameA i], [eps]] hcell ?_
    intro B hB rhs hr
    rcases List.mem_map.1 hB with ⟨j, hj, rfl⟩
    have hji : j < i := List.mem_range.1 hj
    have hgj : nts.getD j "" = nameA j := by
      rw [List.getD_eq_getElem?_getD, hnts]
      have : j < i + 1 := by omega
      simp [this]
    rw [hgj]
    simp only [List.mem_cons, List.mem_singleton, List.not_mem_nil,
      or_false] at hr
    rcases hr with rfl | rfl
    · simp only [List.head?_cons, ne_eq, Option.some.injEq]
      intro he
      have := nameA_inj he
      omega
    · simp only [List.head?_cons, ne_eq, Option.some.injEq]
      intro he
      exact nameA_ne_eps j he.symm
  have hnotin : nameA (i + 1) ∉ keysG prods := by
    rw [hkeys, hnts]
    exact nameA_succ_notin i
  have hlook1 : lookupG prods (nameA (i + 1)) = none :=
    lookupG_eq_none_of_notin prods _ hnotin
  have hfresh : Master.freshPrime prods (nameA i) = nameA (i + 1) := by
    rw [freshPrime_first prods (nameA i) (by rw [← nameA_succ]; exact hlook1)]
    exact (nameA_succ i).symm
  have hget : getG prods (nameA i) [] = [[nameA i], [eps]] := by
    simp [getG, hcell]
  have hstep : Master.elimStep i nts prods =
      (nts ++ [nameA (i + 1)],
       setG
         (setG (setG prods (nameA (i + 1)) [])
           (nameA i) [[nameA (i + 1)]])
         (nameA (i + 1)) [[nameA (i + 1)], [eps]]) := by
    unfold Master.elimStep
    rw [hsub, hAi]
    simp only [Master.elimImmediate, hget, elimAlphas_pair _ (nameA_ne_eps i),
      elimBetas_pair _ (nameA_ne_eps i), hfresh]
    simp
  rw [hstep]
  refine ⟨?_, ?_, ?_⟩
  · rw [hnts]
    simp [List.range_succ]
  · have hmemAi : nameA i ∈ keysG (setG prods (nameA (i + 1)) []) := by
      rw [keysG_setG_notin prods _ _ hnotin, hkeys, hnts]
      simp only [List.mem_append]
      exact Or.inl (List.mem_map.2 ⟨i, List.mem_range.2 (by omega), rfl⟩)
    have hmemP : nameA (i + 1) ∈ keysG
        (setG (setG prods (nameA (i + 1)) []) (nameA i) [[nameA (i + 1)]]) := by
      rw [keysG_setG_mem _ _ _ hmemAi, keysG_setG_notin prods _ _ hnotin]
      simp
    rw [keysG_setG_mem _ _ _ hmemP, keysG_setG_mem _ _ _ hmemAi,
      keysG_setG_notin prods _ _ hnotin, hkeys]
  · exact lookupG_setG_self _ _ _

/-- From a state satisfying the invariant, the outer loop of
`eliminateLeftRecursion` never terminates: the index never catches up
with the growing enumeration. -/
theorem elimLoop_none (fuel : Nat) : ∀ i nts prods, ElimInv i nts prods →
    Master.elimLoop fuel i nts prods = none := by
  induction fuel with
  | zero => intro i nts prods _; rfl
  | succ f ih =>
    intro i nts prods h
    have hlen : i < nts.length := by rw [h.1]; simp
    unfold Master.elimLoop
    rw [if_pos hlen]
    exact ih (i + 1) _ _ (elimStep_inv i nts prods h)

/-- Claim C2 (code bug).  On the grammar `A -> A`,
`eliminateLeftRecursion` never returns: every outer iteration appends a
fresh primed nonterminal carrying the same self-recursive pattern, so no
amount of fuel makes the loop index reach the end of the (growing)
nonterminal list.  The specification promises that every loop is bounded
and every call completes. -/
theorem C2_elimination_diverges (fuel : Nat) :
    Master.eliminateLeftRecursion fuel gUnitRec = none := by
  cases fuel with
  | zero => rfl
  | succ f =>
    show Master.elimLoop (f + 1) 0 (keysG gUnitRec) gUnitRec = none
    unfold Master.elimLoop
    rw [if_pos (by decide)]
    have hstep : Master.elimStep 0 (keysG gUnitRec) gUnitRec =
        (["A", nameA 1], [("A", []), (nameA 1, [[nameA 1], [eps]])]) := by
      decide
    rw [hstep]
    refine elimLoop_none f 1 _ _ ⟨?_, ?_, ?_⟩ <;> decide

/-- Claim C5 (code bug).  On `B -> D x ; C -> ε ; D -> C B y` the
elimination terminates, but substituting the epsilon alternative of `C`
into `D` exposes the earlier nonterminal `B` after the inner loop over
earlier nonterminals has already passed `B`.  The returned grammar still
contains indirect left recursion: `D`'s only alternative begins with the
earlier nonterminal `B`, and `B`'s only alternative begins with `D`
(the cycle D → B → D, i.e. D ⇒ B y ⇒ D x y). -/
theorem C5_indirect_recursion_remains :
    Master.eliminateLeftRecursion 10 gIndirect = some gIndirectOut ∧
    lookupG gIndirectOut "D" = some [["B", "y"]] ∧
    lookupG gIndirectOut "B" = some [["D", "x"]] := by
  refine ⟨by decide, by decide, by decide⟩

/-- Claim C3 (counterexample).  `leftFactor` factors only one level
deep: on `A -> a b c | a b d | a x` the fresh nonterminal `A_fact` is
left with the two distinct alternatives `b c` and `b d`, which share
the nonempty prefix `b`. -/
theorem C3_counterexample :
    Master.leftFactor gFact =
      [("A", [["a", "A_fact"]]),
       ("A_fact", [["b", "c"], ["b", "d"], ["x"]])] ∧
    ¬ GoodCell (getG (Master.leftFactor gFact) "A_fact" []) := by
  refine ⟨by decide, ?_⟩
  intro hgood
  have := hgood ["b", "c"] (by decide) ["b", "d"] (by decide) (by decide)
  simp [sharesNonemptyPrefixB] at this

theorem lookupG_mem {α : Type} (m : List (Symb × α)) (k : Symb) (v : α)
    (h : lookupG m k = some v) : (k, v) ∈ m := by
  induction m with
  | nil => simp [lookupG] at h
  | cons p rest ih =>
    obtain ⟨a, b⟩ := p
    by_cases hp : a = k
    · simp only [lookupG, hp, if_true, Option.some.injEq] at h
      subst hp; subst h; simp
    · simp only [lookupG, hp, if_false] at h
      simp [ih h]

theorem mem_keysG_of_mem {α : Type} (m : List (Symb × α)) (kg : Symb × α)
    (h : kg ∈ m) : kg.1 ∈ keysG m := by
  simpa [keysG] using List.mem_map_of_mem Prod.fst h

theorem lookupG_of_mem_nodup {α : Type} (m : List (Symb × α))
    (kg : Symb × α) (h : kg ∈ m) (hnd : (keysG m).Nodup) :
    lookupG m kg.1 = some kg.2 := by
  induction m with
  | nil => simp at h
  | cons p rest ih =>
    obtain ⟨a, b⟩ := p
    simp only [keysG, List.map_cons, List.nodup_cons] at hnd
    rcases List.mem_cons.1 h with rfl | hmem
    · simp [lookupG]
    · have hka : a ≠ kg.1 := by
        intro he
        exact hnd.1 (he ▸ mem_keysG_of_mem rest kg hmem)
      simp only [lookupG, hka, if_false]
      exact ih hmem (by simpa [keysG] using hnd.2)

theorem eq_of_mem_nodup_keys {α : Type} (m : List (Symb × α)) (k : Symb)
    (a b : α) (ha : (k, a) ∈ m) (hb : (k, b) ∈ m)
    (hnd : (keysG m).Nodup) : a = b := by
  have h1 := lookupG_of_mem_nodup m (k, a) ha hnd
  have h2 := lookupG_of_mem_nodup m (k, b) hb hnd
  rw [h1] at h2
  have h3 := Option.some.inj h2
  simp only at h3
  exact h3

theorem one_lt_length_of_two_mem {α : Type} (l : List α) (a b : α)
    (ha : a ∈ l) (hb : b ∈ l) (hne : a ≠ b) : 1 < l.length := by
  induction l with
  | nil => simp at ha
  | cons x xs ih =>
    rcases List.mem_cons.1 ha with rfl | ha2
    · rcases List.mem_cons.1 hb with rfl | hb2
      · exact absurd rfl hne
      · have : 0 < xs.length := List.length_pos.2 (by
          intro he; rw [he] at hb2; simp at hb2)
        simp only [List.length_cons]
        omega
    · have : 0 < xs.length := List.length_pos.2 (by
        intro he; rw [he] at ha2; simp at ha2)
      simp only [List.length_cons]
      omega

theorem factCand_data (A : Symb) (c : Nat) :
    ∃ t : List Char,
      (Master.factCand A c).data = (A ++ "_fact").data ++ t := by
  cases c with
  | zero => exact ⟨[], by simp [Master.factCand]⟩
  | succ n =>
    refine ⟨(Nat.repr (n + 1)).data, ?_⟩
    show (A ++ "_fact" ++ Nat.repr (n + 1)).data = _
    simp

theorem factCand_ne_base (B : Symb) (c : Nat) : Master.factCand B c ≠ B := by
  intro he
  obtain ⟨t, ht⟩ := factCand_data B c
  have hlen := congrArg (fun s : Symb => s.data.length) he
  simp only [ht] at hlen
  have h5 : (B ++ "_fact").data.length = B.data.length + 5 := by
    have : (B ++ "_fact").data = B.data ++ ("_fact" : Symb).data := rfl
    rw [this, List.length_append]
    norm_num
  simp only [List.length_append, h5] at hlen
  omega

/-- Under `NoFactNames`, a generated `_fact` candidate never equals a
key of the original grammar. -/
theorem factCand_ne_orig (g : Grammar) (hfact : NoFactNames g)
    (B : Symb) (hB : B ∈ keysG g) (k : Symb) (hk : k ∈ keysG g)
    (c : Nat) : Master.factCand B c ≠ k := by
  intro he
  obtain ⟨t, ht⟩ := factCand_data B c
  exact hfact B hB k hk ⟨t, by rw [← ht, he]⟩

/-- The fresh-name search always returns some candidate. -/
theorem freshFactGo_form (prods : Grammar) (B : Symb) :
    ∀ fuel c, ∃ d, Master.freshFactGo prods B fuel c = Master.factCand B d := by
  intro fuel
  induction fuel with
  | zero => intro c; exact ⟨c, rfl⟩
  | succ f ih =>
    intro c
    unfold Master.freshFactGo
    by_cases h : (lookupG prods (Master.factCand B c)).isSome
    · simpa [h] using ih (c + 1)
    · exact ⟨c, by simp [h]⟩

theorem freshFact_form (prods : Grammar) (B : Symb) :
    ∃ d, Master.freshFact prods B = Master.factCand B d :=
  freshFactGo_form prods B (prods.length + 1) 0

/-- `factorGroup` changes only the entries of `A` and of the generated
`_fact` name, so any other lookup is preserved. -/
theorem factorGroup_preserves (A X : Symb) (prods : Grammar) (g : Cell)
    (hXA : X ≠ A) (hXf : ∀ c, X ≠ Master.factCand A c) :
    lookupG (Master.factorGroup A prods g) X = lookupG prods X := by
  unfold Master.factorGroup
  by_cases h1 : 1 < g.length
  · simp only [h1, if_true]
    by_cases h2 : Master.lcpGroup g = []
    · simp [h2]
    · simp only [h2, if_false]
      obtain ⟨d, hd⟩ := freshFact_form prods A
      rw [lookupG_setG_ne _ _ _ _ (by rw [hd]; exact fun he => hXf d he.symm),
        lookupG_setG_ne _ _ _ _ (fun he => hXA he.symm)]
  · simp [h1]

/-- `leftFactorOne` preserves every entry other than the processed
nonterminal and its generated `_fact` names. -/
theorem leftFactorOne_preserves (B X : Symb) (prods : Grammar)
    (hXB : X ≠ B) (hXf : ∀ c, X ≠ Master.factCand B c) :
    lookupG (Master.leftFactorOne prods B) X = lookupG prods X := by
  unfold Master.leftFactorOne
  by_cases h : (getG prods B []).length < 2
  · simp [h]
  · simp only [h, if_false]
    have hfold : ∀ (gs : List (Symb × Cell)) (p : Grammar),
        lookupG (gs.foldl (fun p2 kg => Master.factorGroup B p2 kg.2) p) X =
          lookupG p X := by
      intro gs
      induction gs with
      | nil => intro p; rfl
      | cons kg rest ih =>
        intro p
        simp only [List.foldl_cons]
        rw [ih (Master.factorGroup B p kg.2),
          factorGroup_preserves B X p kg.2 hXB hXf]
    exact hfold _ prods

theorem lookupG_isSome_of_mem_keys {α : Type} (m : List (Symb × α))
    (k : Symb) (h : k ∈ keysG m) : ∃ v, lookupG m k = some v := by
  induction m with
  | nil => simp [keysG] at h
  | cons p rest ih =>
    obtain ⟨a, b⟩ := p
    by_cases hp : a = k
    · exact ⟨b, by simp [lookupG, hp]⟩
    · have hrest : k ∈ keysG rest := by
        simp only [keysG, List.map_cons, List.mem_cons] at h
        rcases h with h | h
        · exact absurd h.symm hp
        · simpa [keysG] using h
      obtain ⟨v, hv⟩ := ih hrest
      exact ⟨v, by simp [lookupG, hp, hv]⟩

theorem lookupG_append {α : Type} (m1 m2 : List (Symb × α)) (k : Symb)
    (h : lookupG m1 k = none) : lookupG (m1 ++ m2) k = lookupG m2 k := by
  induction m1 with
  | nil => rfl
  | cons p rest ih =>
    obtain ⟨a, b⟩ := p
    by_cases hp : a = k
    · simp [lookupG, hp] at h
    · simp only [lookupG, hp, if_false] at h
      simp only [List.cons_append, lookupG, hp, if_false]
      exact ih h

theorem lookupG_append_left {α : Type} (m1 m2 : List (Symb × α)) (k : Symb)
    (v : α) (h : lookupG m1 k = some v) :
    lookupG (m1 ++ m2) k = some v := by
  induction m1 with
  | nil => simp [lookupG] at h
  | cons p rest ih =>
    obtain ⟨a, b⟩ := p
    by_cases hp : a = k
    · simp only [lookupG, hp, if_true] at h
      simp [lookupG, hp, h]
    · simp only [lookupG, hp, if_false] at h
      simp only [List.cons_append, lookupG, hp, if_false]
      exact ih h

/-- Specification of the grouping fold of `leftFactor`: the keys are
duplicate-free and each present key maps to exactly the alternatives of
the scanned list whose first symbol is that key. -/
theorem buildGroups_go_spec (rhss : Cell) :
    ∀ (gs : List (Symb × Cell)) (seen : Cell),
      (keysG gs).Nodup →
      (∀ k : Symb, lookupG gs k =
        (if seen.filter (fun r => decide (r.head? = some k)) = [] then none
         else some (seen.filter (fun r => decide (r.head? = some k))))) →
      (keysG (rhss.foldl
        (fun gs2 rhs =>
          match rhs.head? with
          | some k => Master.addGroup gs2 k rhs
          | none => gs2) gs)).Nodup ∧
      (∀ k : Symb, lookupG (rhss.foldl
        (fun gs2 rhs =>
          match rhs.head? with
          | some k => Master.addGroup gs2 k rhs
          | none => gs2) gs) k =
        (if (seen ++ rhss).filter (fun r => decide (r.head? = some k)) = []
         then none
         else some ((seen ++ rhss).filter
           (fun r => decide (r.head? = some k))))) := by
  induction rhss with
  | nil =>
    intro gs seen hnd hlook
    refine ⟨hnd, ?_⟩
    intro k
    simpa using hlook k
  | cons rhs rest ih =>
    intro gs seen hnd hlook
    simp only [List.foldl_cons]
    rcases hr : rhs.head? with _ | k0
    · have hlook2 : ∀ k : Symb, lookupG gs k =
          (if (seen ++ [rhs]).filter (fun r => decide (r.head? = some k)) = []
           then none
           else some ((seen ++ [rhs]).filter
             (fun r => decide (r.head? = some k)))) := by
        intro k
        have hone : List.filter (fun r => decide (r.head? = some k))
            (seen ++ [rhs]) =
            List.filter (fun r => decide (r.head? = some k)) seen := by
          simp [List.filter_append, hr]
        rw [hone]
        exact hlook k
      have hrec := ih gs (seen ++ [rhs]) hnd hlook2
      simp only [hr]
      constructor
      · exact hrec.1
      · intro k
        have := hrec.2 k
        simpa [List.append_assoc] using this
    · simp only [hr]
      unfold Master.addGroup
      rcases hl : lookupG gs k0 with _ | g
      · have hnotin : k0 ∉ keysG gs := by
          intro hmem
          obtain ⟨v, hv⟩ := lookupG_isSome_of_mem_keys gs k0 hmem
          rw [hv] at hl
          cases hl
        have hnd2 : (keysG (gs ++ [(k0, [rhs])])).Nodup := by
          simp only [keysG, List.map_append, List.map_cons, List.map_nil]
          rw [List.nodup_append]
          refine ⟨by simpa [keysG] using hnd, by simp, ?_⟩
          intro a ha hb
          simp at hb
          subst hb
          exact hnotin (by simpa [keysG] using ha)
        have hlook2 : ∀ k : Symb, lookupG (gs ++ [(k0, [rhs])]) k =
            (if (seen ++ [rhs]).filter
              (fun r => decide (r.head? = some k)) = [] then none
             else some ((seen ++ [rhs]).filter
               (fun r => decide (r.head? = some k)))) := by
          intro k
          by_cases hk : k0 = k
          · subst hk
            rw [lookupG_append gs _ k0 hl]
            have hsf : seen.filter (fun r => decide (r.head? = some k0)) = [] := by
              have := hlook k0
              rw [hl] at this
              by_cases hc :
                  seen.filter (fun r => decide (r.head? = some k0)) = []
              · exact hc
              · rw [if_neg hc] at this; cases this
            simp [List.filter_append, hsf, lookupG, hr]
          · have h1 : lookupG (gs ++ [(k0, [rhs])]) k = lookupG gs k := by
              rcases hgk : lookupG gs k with _ | v
              · rw [lookupG_append gs _ k hgk]
                simp [lookupG, hk]
              · exact lookupG_append_left gs _ k v hgk
            rw [h1]
            have hone : List.filter (fun r => decide (r.head? = some k))
                (seen ++ [rhs]) =
                List.filter (fun r => decide (r.head? = some k)) seen := by
              simp [List.filter_append, hr, hk]
            rw [hone]
            exact hlook k
        have hrec := ih _ (seen ++ [rhs]) hnd2 hlook2
        constructor
        · exact hrec.1
        · intro k
          have := hrec.2 k
          simpa [List.append_assoc] using this
      · have hmem : k0 ∈ keysG gs :=
          mem_keysG_of_mem gs (k0, g) (lookupG_mem gs k0 g hl)
        have hnd2 : (keysG (setG gs k0 (g ++ [rhs]))).Nodup := by
          rw [keysG_setG_mem gs k0 _ hmem]
          exact hnd
        have hlook2 : ∀ k : Symb, lookupG (setG gs k0 (g ++ [rhs])) k =
            (if (seen ++ [rhs]).filter
              (fun r => decide (r.head? = some k)) = [] then none
             else some ((seen ++ [rhs]).filter
               (fun r => decide (r.head? = some k)))) := by
          intro k
          by_cases hk : k0 = k
          · subst hk
            rw [lookupG_setG_self]
            have hg : g = seen.filter (fun r => decide (r.head? = some k0)) := by
              have := hlook k0
              rw [hl] at this
              by_cases hc :
                  seen.filter (fun r => decide (r.head? = some k0)) = []
              · rw [if_pos hc] at this; cases this
              · rw [if_neg hc] at this
                exact Option.some.inj this
            simp [List.filter_append, ← hg, lookupG, hr]
          · rw [lookupG_setG_ne gs k0 k _ hk]
            have hone : List.filter (fun r => decide (r.head? = some k))
                (seen ++ [rhs]) =
                List.filter (fun r => decide (r.head? = some k)) seen := by
              simp [List.filter_append, hr, hk]
            rw [hone]
            exact hlook k
        have hrec := ih _ (seen ++ [rhs]) hnd2 hlook2
        constructor
        · exact hrec.1
        · intro k
          have := hrec.2 k
          simpa [List.append_assoc] using this

theorem lcp2_cons_same (k : Symb) (xs ys : Alt) :
    Master.lcp2 (k :: xs) (k :: ys) = k :: Master.lcp2 xs ys := by
  simp [Master.lcp2]

theorem lcp_fold_head (k : Symb) :
    ∀ (rs : Cell) (acctail : List Symb),
      (∀ r ∈ rs, r.head? = some k) →
      ∃ tail, rs.foldl Master.lcp2 (k :: acctail) = k :: tail := by
  intro rs
  induction rs with
  | nil => intro acctail _; exact ⟨acctail, rfl⟩
  | cons c cs ih =>
    intro acctail hall
    have hc := hall c (by simp)
    rcases c with _ | ⟨x, ctail⟩
    · cases hc
    · have hx : x = k := by
        simp only [List.head?_cons, Option.some.injEq] at hc
        exact hc
      subst hx
      simp only [List.foldl_cons, lcp2_cons_same]
      exact ih (Master.lcp2 acctail ctail)
        (fun r hr => hall r (by simp [hr]))

theorem mem_keysG_cons {α : Type} (p : Symb × α) (m : List (Symb × α))
    (k2 : Symb) (h : k2 ∈ keysG m) : k2 ∈ keysG (p :: m) := by
  simp only [keysG, List.map_cons]
  exact List.mem_cons_of_mem _ h

theorem lcpGroup_head (k : Symb) (g : Cell) (hg : g ≠ [])
    (hall : ∀ r ∈ g, r.head? = some k) :
    ∃ tail, Master.lcpGroup g = k :: tail := by
  rcases g with _ | ⟨r, rs⟩
  · exact absurd rfl hg
  · obtain ⟨rt, hrt⟩ : ∃ t, r = k :: t := by
      have hr := hall r (by simp)
      rcases r with _ | ⟨x, rt⟩
      · cases hr
      · simp only [List.head?_cons, Option.some.injEq] at hr
        exact ⟨rt, by rw [hr]⟩
    subst hrt
    show ∃ tail, rs.foldl Master.lcp2 (k :: rt) = k :: tail
    exact lcp_fold_head k rs rt (fun r2 hr2 => hall r2 (by simp [hr2]))

/-- Main invariant of the per-nonterminal factoring fold of
`leftFactor`: after processing the pending groups, the cell of `B`
consists of the untouched alternatives (those whose first symbol has no
replacement) followed by one replacement per factored group, each
headed by its group's first symbol; every group with at least two
members ends up factored. -/
theorem factor_fold_spec (B : Symb) (rhss : Cell) :
    ∀ (todo : List (Symb × Cell)) (prods : Grammar)
      (repls : List (Symb × Alt)),
      (keysG todo).Nodup →
      (∀ kg ∈ todo, kg.2 =
          rhss.filter (fun r => decide (r.head? = some kg.1)) ∧ kg.2 ≠ []) →
      (∀ kr ∈ repls, (kr.2 : Alt).head? = some kr.1) →
      (keysG repls).Nodup →
      (∀ k2 ∈ keysG todo, k2 ∉ keysG repls) →
      lookupG prods B =
        some (rhss.filter (keptAlt (keysG repls)) ++ repls.map Prod.snd) →
      ∃ repls2 : List (Symb × Alt),
        (∀ kr ∈ repls2, (kr.2 : Alt).head? = some kr.1) ∧
        (keysG repls2).Nodup ∧
        (∀ k2 ∈ keysG repls, k2 ∈ keysG repls2) ∧
        (∀ kg ∈ todo, 1 < (kg.2 : Cell).length → kg.1 ∈ keysG repls2) ∧
        (∀ k2 ∈ keysG repls2, k2 ∈ keysG repls ∨ k2 ∈ keysG todo) ∧
        lookupG (todo.foldl
            (fun p kg => Master.factorGroup B p kg.2) prods) B =
          some (rhss.filter (keptAlt (keysG repls2)) ++
            repls2.map Prod.snd) := by
  intro todo
  induction todo with
  | nil =>
    intro prods repls _ _ hrh hrnd _ hlook
    exact ⟨repls, hrh, hrnd, fun k2 h => h, by simp, fun k2 h => Or.inl h,
      hlook⟩
  | cons kg0 rest ih =>
    intro prods repls hnd hgr hrh hrnd hdisj hlook
    obtain ⟨k, gr⟩ := kg0
    obtain ⟨hgr1, hgr2⟩ := hgr (k, gr) (by simp)
    simp only at hgr1 hgr2
    have hheads : ∀ r ∈ gr, r.head? = some k := by
      intro r hrg
      rw [hgr1] at hrg
      have := List.mem_filter.1 hrg
      simpa using this.2
    have hndrest : (keysG rest).Nodup := by
      simp only [keysG, List.map_cons, List.nodup_cons] at hnd
      exact hnd.2
    have hknotrest : k ∉ keysG rest := by
      simp only [keysG, List.map_cons, List.nodup_cons] at hnd
      exact hnd.1
    simp only [List.foldl_cons]
    by_cases hlen : 1 < gr.length
    · -- the group is factored
      obtain ⟨pretail, hpre⟩ := lcpGroup_head k gr hgr2 hheads
      obtain ⟨d, hd⟩ := freshFact_form prods B
      have hprene : Master.lcpGroup gr ≠ [] := by rw [hpre]; simp
      have hC : getG prods B [] =
          rhss.filter (keptAlt (keysG repls)) ++ repls.map Prod.snd := by
        simp [getG, hlook]
      have hp1 : (rhss.filter (keptAlt (keysG repls))).filter
            (fun r => decide (r ∉ gr)) =
          rhss.filter (keptAlt (keysG repls ++ [k])) := by
        rw [List.filter_filter]
        refine List.filter_congr ?_
        intro r hr
        rcases hhead : r.head? with _ | k2
        · have hng : r ∉ gr := fun hm => by
            have := hheads r hm; rw [hhead] at this; cases this
          simp [keptAlt, hhead, hng]
        · by_cases hkk : k2 = k
          · subst hkk
            have hing : r ∈ gr := by
              rw [hgr1]
              exact List.mem_filter.2 ⟨hr, by simp [hhead]⟩
            simp [keptAlt, hhead, hing]
          · have hng : r ∉ gr := fun hm => by
              have := hheads r hm
              rw [hhead] at this
              exact hkk (Option.some.inj this)
            simp [keptAlt, hhead, hng, hkk]
      have hp2 : (repls.map Prod.snd).filter (fun r => decide (r ∉ gr)) =
          repls.map Prod.snd := by
        rw [List.filter_eq_self]
        intro rep hrep
        rcases List.mem_map.1 hrep with ⟨kr, hkr, rfl⟩
        have hh := hrh kr hkr
        refine decide_eq_true ?_
        intro hm
        have hsame := hheads kr.2 hm
        rw [hh] at hsame
        have hk1 : kr.1 = k := Option.some.inj hsame
        exact hdisj k (by simp [keysG])
          (hk1 ▸ mem_keysG_of_mem repls kr hkr)
      have hstep : lookupG (Master.factorGroup B prods gr) B =
          some (rhss.filter (keptAlt (keysG repls ++ [k])) ++
            (repls ++ [(k, Master.lcpGroup gr ++
              [Master.factCand B d])]).map Prod.snd) := by
        simp only [Master.factorGroup, hlen, if_true]
        rw [if_neg hprene, hd, hC]
        rw [lookupG_setG_ne _ _ _ _ (factCand_ne_base B d),
          lookupG_setG_self]
        rw [List.filter_append, hp1, hp2]
        simp [List.append_assoc]
      have hrec := ih (Master.factorGroup B prods gr)
        (repls ++ [(k, Master.lcpGroup gr ++ [Master.factCand B d])])
        hndrest
        (fun kg hm => hgr kg (by simp [hm]))
        (by
          intro kr hkr
          rcases List.mem_append.1 hkr with hold | hnew
          · exact hrh kr hold
          · simp only [List.mem_singleton] at hnew
            subst hnew
            simp [hpre])
        (by
          have : keysG (repls ++
              [(k, Master.lcpGroup gr ++ [Master.factCand B d])]) =
            keysG repls ++ [k] := by simp [keysG]
          rw [this]
          rw [List.nodup_append]
          exact ⟨hrnd, by simp, by
            intro a ha hb
            simp at hb
            subst hb
            exact hdisj a (by simp [keysG]) ha⟩)
        (by
          intro k2 hk2
          have hk2r : k2 ∉ keysG repls :=
            hdisj k2 (mem_keysG_cons _ _ _ hk2)
          have hk2k : k2 ≠ k := by
            intro he
            subst he
            exact hknotrest hk2
          have hkeq2 : keysG (repls ++
              [(k, Master.lcpGroup gr ++ [Master.factCand B d])]) =
            keysG repls ++ [k] := by simp [keysG]
          rw [hkeq2]
          simp only [List.mem_append, List.mem_singleton]
          rintro (h | h)
          · exact hk2r h
          · exact hk2k h)
        (by
          have hkeq : keysG (repls ++
              [(k, Master.lcpGroup gr ++ [Master.factCand B d])]) =
            keysG repls ++ [k] := by simp [keysG]
          rw [hkeq]
          exact hstep)
      obtain ⟨repls2, h1, h2, h3, h4, h5, h6⟩ := hrec
      have hkeq : keysG (repls ++
          [(k, Master.lcpGroup gr ++ [Master.factCand B d])]) =
        keysG repls ++ [k] := by simp [keysG]
      refine ⟨repls2, h1, h2, ?_, ?_, ?_, h6⟩
      · intro k2 hk2
        exact h3 k2 (by rw [hkeq]; simp [hk2])
      · intro kg hm hl
        rcases List.mem_cons.1 hm with rfl | hm2
        · exact h3 _ (by rw [hkeq]; simp)
        · exact h4 kg hm2 hl
      · intro k2 hk2
        rcases h5 k2 hk2 with h | h
        · rw [hkeq] at h
          rcases List.mem_append.1 h with h | h
          · exact Or.inl h
          · simp at h
            subst h
            exact Or.inr (by simp [keysG])
        · exact Or.inr (mem_keysG_cons _ _ _ h)
    · -- small group: nothing happens
      have hskip : Master.factorGroup B prods gr = prods := by
        simp [Master.factorGroup, hlen]
      rw [hskip]
      have hrec := ih prods repls hndrest
        (fun kg hm => hgr kg (by simp [hm])) hrh hrnd
        (fun k2 hk2 => hdisj k2 (mem_keysG_cons _ _ _ hk2)) hlook
      obtain ⟨repls2, h1, h2, h3, h4, h5, h6⟩ := hrec
      refine ⟨repls2, h1, h2, h3, ?_, ?_, h6⟩
      · intro kg hm hl
        rcases List.mem_cons.1 hm with rfl | hm2
        · exact absurd hl hlen
        · exact h4 kg hm2 hl
      · intro k2 hk2
        rcases h5 k2 hk2 with h | h
        · exact Or.inl h
        · exact Or.inr (mem_keysG_cons _ _ _ h)

theorem keptAlt_nil (r : Alt) : keptAlt [] r = true := by
  unfold keptAlt
  rcases r.head? with _ | k <;> simp

theorem keptAlt_cons_eval (K : List Symb) (x : Symb) (rtl : List Symb) :
    keptAlt K (x :: rtl) = decide (x ∉ K) := rfl

/-- After `leftFactorOne` processes a nonterminal, no two of its
distinct alternatives share a nonempty common prefix (every shared
first symbol was factored out into a single replacement). -/
theorem leftFactorOne_good (prods : Grammar) (B : Symb) :
    GoodCell (getG (Master.leftFactorOne prods B) B []) := by
  unfold Master.leftFactorOne
  by_cases hlt : (getG prods B []).length < 2
  · simp only [hlt, if_true]
    intro r hr s hs hne
    exfalso
    exact absurd (one_lt_length_of_two_mem _ r s hr hs hne) (by omega)
  · simp only [hlt, if_false]
    have hlook : lookupG prods B = some (getG prods B []) := by
      rcases hl : lookupG prods B with _ | v
      · exfalso; apply hlt; simp [getG, hl]
      · simp [getG, hl]
    obtain ⟨hgnd, hglook⟩ := buildGroups_go_spec (getG prods B []) [] []
      (by simp [keysG]) (by intro k; simp [lookupG])
    have hgnd2 : (keysG (Master.buildGroups (getG prods B []))).Nodup := hgnd
    have hglook2 : ∀ k : Symb,
        lookupG (Master.buildGroups (getG prods B [])) k =
        (if (getG prods B []).filter
            (fun r => decide (r.head? = some k)) = [] then none
         else some ((getG prods B []).filter
            (fun r => decide (r.head? = some k)))) := by
      intro k
      have := hglook k
      simpa using this
    have hspec := factor_fold_spec B (getG prods B [])
      (Master.buildGroups (getG prods B [])) prods []
      hgnd2
      (by
        intro kg hm
        have hl2 := lookupG_of_mem_nodup _ kg hm hgnd2
        rw [hglook2 kg.1] at hl2
        by_cases hc : (getG prods B []).filter
            (fun r => decide (r.head? = some kg.1)) = []
        · rw [if_pos hc] at hl2; cases hl2
        · rw [if_neg hc] at hl2
          have heq := Option.some.inj hl2
          exact ⟨heq.symm, by rw [← heq]; exact hc⟩)
      (by intro kr hkr; simp at hkr)
      (by simp [keysG])
      (by intro k2 _ hmem; simp [keysG] at hmem)
      (by
        show lookupG prods B =
          some ((getG prods B []).filter (keptAlt []) ++ [])
        rw [List.filter_eq_self.2 (fun r _ => keptAlt_nil r),
          List.append_nil, hlook])
    obtain ⟨repls2, h1, h2, _, h4, _, h6⟩ := hspec
    have hcell : getG ((Master.buildGroups (getG prods B [])).foldl
        (fun p kg => Master.factorGroup B p kg.2) prods) B [] =
        (getG prods B []).filter (keptAlt (keysG repls2)) ++
          repls2.map Prod.snd := by
      show (lookupG ((Master.buildGroups (getG prods B [])).foldl
        (fun p kg => Master.factorGroup B p kg.2) prods) B).getD [] = _
      rw [h6]
      rfl
    rw [hcell]
    intro r hr s hs hne
    rcases r with _ | ⟨x, rtl⟩
    · rfl
    · rcases s with _ | ⟨y, stl⟩
      · rfl
      · show decide (x = y) = false
        rw [decide_eq_false_iff_not]
        intro hxy
        subst hxy
        rcases List.mem_append.1 hr with hrf | hrm
        · have hrmem := List.mem_filter.1 hrf
          have hrx : x ∉ keysG repls2 := by
            have := hrmem.2
            rw [keptAlt_cons_eval] at this
            exact of_decide_eq_true this
          rcases List.mem_append.1 hs with hsf | hsm
          · -- both kept: their shared head's group has two members
            have hsmem := List.mem_filter.1 hsf
            have hfmem : (x :: rtl) ∈ (getG prods B []).filter
                (fun r2 => decide (r2.head? = some x)) :=
              List.mem_filter.2 ⟨hrmem.1, by simp⟩
            have hfmem2 : (x :: stl) ∈ (getG prods B []).filter
                (fun r2 => decide (r2.head? = some x)) :=
              List.mem_filter.2 ⟨hsmem.1, by simp⟩
            have hne2 : (getG prods B []).filter
                (fun r2 => decide (r2.head? = some x)) ≠ [] := by
              intro he; rw [he] at hfmem; cases hfmem
            have hl2 := hglook2 x
            rw [if_neg hne2] at hl2
            have hmemg := lookupG_mem _ _ _ hl2
            have hxk := h4 (x, (getG prods B []).filter
                (fun r2 => decide (r2.head? = some x))) hmemg
              (one_lt_length_of_two_mem _ _ _ hfmem hfmem2 hne)
            exact hrx hxk
          · -- kept + replacement with the same head
            rcases List.mem_map.1 hsm with ⟨kr, hkr, hse⟩
            have hh := h1 kr hkr
            rw [hse] at hh
            have : kr.1 = x := by
              simp only [List.head?_cons, Option.some.injEq] at hh
              exact hh.symm
            exact hrx (this ▸ mem_keysG_of_mem repls2 kr hkr)
        · rcases List.mem_map.1 hrm with ⟨kr, hkr, hre⟩
          have hh := h1 kr hkr
          rw [hre] at hh
          have hkrx : kr.1 = x := by
            simp only [List.head?_cons, Option.some.injEq] at hh
            exact hh.symm
          rcases List.mem_append.1 hs with hsf | hsm
          · have hsmem := List.mem_filter.1 hsf
            have hsx : x ∉ keysG repls2 := by
              have := hsmem.2
              rw [keptAlt_cons_eval] at this
              exact of_decide_eq_true this
            exact hsx (hkrx ▸ mem_keysG_of_mem repls2 kr hkr)
          · rcases List.mem_map.1 hsm with ⟨kr2, hkr2, hse⟩
            have hh2 := h1 kr2 hkr2
            rw [hse] at hh2
            have hkr2x : kr2.1 = x := by
              simp only [List.head?_cons, Option.some.injEq] at hh2
              exact hh2.symm
            have hkr1mem : (x, (x :: rtl)) ∈ repls2 := by
              have : kr = (x, x :: rtl) := by
                obtain ⟨a, b⟩ := kr
                simp only at hkrx hre
                rw [hkrx, hre]
              rw [← this]; exact hkr
            have hkr2mem : (x, (x :: stl)) ∈ repls2 := by
              have : kr2 = (x, x :: stl) := by
                obtain ⟨a, b⟩ := kr2
                simp only at hkr2x hse
                rw [hkr2x, hse]
              rw [← this]; exact hkr2
            exact hne (eq_of_mem_nodup_keys repls2 x _ _ hkr1mem hkr2mem h2)

/-- Claim C3 (amended).  For every input grammar with duplicate-free
nonterminal names, none of which is named like a generated `_fact`
name, every nonterminal **of the input** has, in the grammar returned
by `leftFactor`, no two distinct alternatives sharing a nonempty common
symbol prefix.  (The counterexample shows the property fails for the
freshly introduced `_fact` nonterminals, which the single pass never
revisits.) -/
theorem C3_amended (g : Grammar) (hnodup : (keysG g).Nodup)
    (hfact : NoFactNames g) :
    ∀ A ∈ keysG g, GoodCell (getG (Master.leftFactor g) A []) := by
  intro A hA
  obtain ⟨l1, l2, hsplit⟩ := List.append_of_mem hA
  unfold Master.leftFactor
  rw [hsplit, List.foldl_append, List.foldl_cons]
  have hANl2 : A ∉ l2 := by
    have hnd2 := hnodup
    rw [hsplit] at hnd2
    have h2 : (A :: l2).Nodup := (List.nodup_append.1 hnd2).2.1
    exact (List.nodup_cons.1 h2).1
  have hpost : ∀ (l : List Symb) (p : Grammar),
      (∀ B ∈ l, B ∈ keysG g ∧ B ≠ A) →
      lookupG (l.foldl Master.leftFactorOne p) A = lookupG p A := by
    intro l
    induction l with
    | nil => intro p _; rfl
    | cons b bs ih =>
      intro p hl
      simp only [List.foldl_cons]
      rw [ih _ (fun B hB => hl B (by simp [hB]))]
      apply leftFactorOne_preserves
      · exact fun he => (hl b (by simp)).2 he.symm
      · intro c he
        exact factCand_ne_orig g hfact b (hl b (by simp)).1 A hA c he.symm
  have hgetG : getG (l2.foldl Master.leftFactorOne
      (Master.leftFactorOne (l1.foldl Master.leftFactorOne g) A)) A [] =
      getG (Master.leftFactorOne (l1.foldl Master.leftFactorOne g) A) A [] := by
    unfold getG
    rw [hpost l2 _ (fun B hB =>
      ⟨by rw [hsplit]; simp [hB], fun he => hANl2 (he ▸ hB)⟩)]
  rw [hgetG]
  exact leftFactorOne_good _ A

/-- Claim C3 (witness): the amended statement at the concrete
counterexample grammar and its (only) original nonterminal `A`. -/
theorem C3_witness : GoodCell (getG (Master.leftFactor gFact) "A" []) :=
  C3_amended gFact (by decide)
    (by
      intro A hA k hk
      simp only [gFact, keysG, List.map_cons, List.map_nil,
        List.mem_singleton] at hA hk
      subst hA
      subst hk
      intro hpre
      have hle := hpre.length_le
      have h6 : (("A" : Symb) ++ "_fact").data.length = 6 := rfl
      have h1 : ("A" : Symb).data.length = 1 := rfl
      omega)
    "A" (by decide)

theorem getG_setG_self {α : Type} (m : List (Symb × α)) (k : Symb) (v d : α) :
    getG (setG m k v) k d = v := by
  unfold getG
  rw [lookupG_setG_self]
  rfl

theorem getG_setG_ne {α : Type} (m : List (Symb × α)) (k k' : Symb) (v d : α)
    (h : k ≠ k') : getG (setG m k v) k' d = getG m k' d := by
  unfold getG
  rw [lookupG_setG_ne m k k' v h]

/-- Fold preservation on the first component of a pair accumulator. -/
theorem foldl_preserves_fst {α β γ : Type} (P : α → Prop)
    (f : α × γ → β → α × γ) (l : List β)
    (hf : ∀ a b, P a.1 → P (f a b).1) :
    ∀ a, P a.1 → P (l.foldl f a).1 := by
  induction l with
  | nil => intro a h; exact h
  | cons x xs ih => intro a h; exact ih (f a x) (hf a x h)

/-- Fold preservation: a property stable under the step function holds
of any fold result. -/
theorem foldl_preserves {α β : Type} (P : α → Prop) (f : α → β → α)
    (l : List β) (hf : ∀ a b, P a → P (f a b)) :
    ∀ a, P a → P (l.foldl f a) := by
  induction l with
  | nil => intro a h; exact h
  | cons x xs ih => intro a h; exact ih (f a x) (hf a x h)

/-- The dedup push keeps cells duplicate-free under the join key. -/
theorem cellPushDedup_pairwise (c : Cell) (rhs : Alt)
    (h : c.Pairwise (fun r s => Master.joinSp r ≠ Master.joinSp s)) :
    (Master.cellPushDedup c rhs).Pairwise
      (fun r s => Master.joinSp r ≠ Master.joinSp s) := by
  unfold Master.cellPushDedup
  split
  · exact h
  · next hany =>
    rw [List.pairwise_append]
    refine ⟨h, List.pairwise_singleton _ _, ?_⟩
    intro r hr s hs
    simp only [List.mem_singleton] at hs
    subst hs
    intro heq
    simp only [List.any_eq_true, decide_eq_true_eq, not_exists, not_and] at hany
    exact hany r hr heq

/-- A single dedup insertion preserves the table invariant. -/
theorem tableInsert_cellsOK (table : List (Symb × List (Symb × Cell)))
    (A t : Symb) (rhs : Alt) (h : CellsOK table) :
    CellsOK (Master.tableInsert table A t rhs) := by
  intro A2 t2
  unfold Master.tableInsert
  by_cases hA : A2 = A
  · subst hA
    rw [getG_setG_self]
    by_cases ht : t2 = t
    · subst ht
      rw [getG_setG_self]
      exact cellPushDedup_pairwise _ _ (h A2 t2)
    · rw [getG_setG_ne _ _ _ _ _ (fun he => ht he.symm)]
      exact h A2 t2
  · rw [getG_setG_ne _ _ _ _ _ (fun he => hA he.symm)]
    exact h A2 t2

/-- Writing an empty row preserves the table invariant. -/
theorem setG_empty_cellsOK (table : List (Symb × List (Symb × Cell)))
    (A : Symb) (h : CellsOK table) : CellsOK (setG table A []) := by
  intro A2 t2
  by_cases hA : A2 = A
  · subst hA
    rw [getG_setG_self]
    simp [getG, lookupG]
  · rw [getG_setG_ne _ _ _ _ _ (fun he => hA he.symm)]
    exact h A2 t2

/-- Every cell the master table builder produces is duplicate-free under
the join key it compares with. -/
theorem master_table_cellsOK (prods : Grammar)
    (FIRST FOLLOW : List (Symb × List Symb)) :
    CellsOK (Master.buildPredictiveTable prods FIRST FOLLOW).table := by
  unfold Master.buildPredictiveTable
  simp only
  refine foldl_preserves CellsOK _ _ ?_ _ ?_
  · intro table A h
    refine foldl_preserves CellsOK _ _ ?_ _ h
    intro t2 rhs h2
    have h3 : CellsOK ((Master.firstOfString rhs FIRST (keysG prods)).foldl
        (fun tt t => if t ≠ eps then Master.tableInsert tt A t rhs else tt)
        t2) := by
      refine foldl_preserves CellsOK _ _ ?_ _ h2
      intro tt t h4
      by_cases ht : t ≠ eps
      · simpa [ht] using tableInsert_cellsOK tt A t rhs h4
      · simpa [ht] using h4
    split
    · refine foldl_preserves CellsOK _ _ ?_ _ h3
      intro tt b h4
      exact tableInsert_cellsOK tt A b rhs h4
    · exact h3
  · exact foldl_preserves_fst CellsOK _ (keysG prods)
      (fun acc A h => setG_empty_cellsOK acc.1 A h) ([], [])
      (by intro A2 t2; simp [getG, lookupG])

/-- C4 (counterexample): the src/tools.js `buildPredictiveTable` appends
without a duplicate check, so the duplicated production `A -> a` of
`gDup` appears twice in the cell (A, a) and is reported as a conflict,
refuting the claim for that variant. -/
theorem C4_counterexample :
    (Tools.buildPredictiveTable gDup FDup FLDup).1 =
      [("A", [("a", [["a"], ["a"]])])] ∧
    (Tools.buildPredictiveTable gDup FDup FLDup).2 =
      [("A", "a", [["a"], ["a"]])] := by
  constructor
  · rfl
  · rfl

/-- C4 (amended): in the predictive table returned by the master
script's `buildPredictiveTable`, no cell holds two identical
alternatives — for every input grammar and FIRST/FOLLOW sets, every
cell's list is pairwise distinct. -/
theorem C4_amended (prods : Grammar) (FIRST FOLLOW : List (Symb × List Symb))
    (A t : Symb) :
    (getG (getG (Master.buildPredictiveTable prods FIRST FOLLOW).table A [])
      t []).Pairwise (fun r s => r ≠ s) :=
  (master_table_cellsOK prods FIRST FOLLOW A t).imp
    (fun hne heq => hne (congrArg Master.joinSp heq))

/-- The head of a `dropWhile` result fails the predicate. -/
theorem dropWhile_head_not {α : Type} (p : α → Bool) (l : List α) (c : α)
    (cs : List α) (h : l.dropWhile p = c :: cs) : p c = false := by
  induction l with
  | nil => simp [List.dropWhile] at h
  | cons x xs ih =>
    by_cases hx : p x
    · rw [List.dropWhile_cons_of_pos hx] at h
      exact ih h
    · rw [List.dropWhile_cons_of_neg hx] at h
      cases h
      simpa using hx

/-- A nonempty trimmed string contains a non-whitespace character. -/
theorem trimJS_has_nonws (s : Symb) (h : trimJS s ≠ "") :
    ∃ c ∈ (trimJS s).data, isWs c = false := by
  unfold trimJS at h ⊢
  set l2 := ((s.data.dropWhile isWs).reverse.dropWhile isWs) with hl2
  have hne : l2.reverse ≠ [] := by
    intro hx
    exact h (congrArg String.mk hx)
  have hl : l2 ≠ [] := by
    intro hx
    exact hne (by rw [hx]; rfl)
  obtain ⟨c, cs, hcs⟩ := List.exists_cons_of_ne_nil hl
  refine ⟨c, ?_, dropWhile_head_not isWs _ c cs (hl2 ▸ hcs)⟩
  show c ∈ (String.mk l2.reverse).data
  rw [hcs]
  simp

/-- With enough fuel, the word scan of a character list containing a
non-whitespace character returns at least one word. -/
theorem wordsWsGo_ne_nil : ∀ (fuel : Nat) (cs : List Char),
    cs.length < fuel → (∃ c ∈ cs, isWs c = false) →
    wordsWsGo fuel cs ≠ [] := by
  intro fuel
  induction fuel with
  | zero => intro cs h _; omega
  | succ f ih =>
    intro cs hlen hex
    cases cs with
    | nil =>
      obtain ⟨c, hc, _⟩ := hex
      exact absurd hc (List.not_mem_nil c)
    | cons c rest =>
      by_cases hc : isWs c
      · simp only [wordsWsGo, hc, if_true]
        apply ih rest (by simpa using hlen)
        obtain ⟨x, hx, hxw⟩ := hex
        rcases List.mem_cons.mp hx with rfl | hx2
        · rw [hc] at hxw; cases hxw
        · exact ⟨x, hx2, hxw⟩
      · simp [wordsWsGo, hc]

/-- The word split of a trimmed nonempty string is nonempty. -/
theorem wordsWs_ne_nil (cs : List Char) (hex : ∃ c ∈ cs, isWs c = false) :
    wordsWs cs ≠ [] :=
  wordsWsGo_ne_nil (cs.length + 1) cs (by omega) hex

/-- The master tokenizer never returns an empty token list. -/
theorem tokenizeRHS_ne_nil (alt0 : Symb) : Master.tokenizeRHS alt0 ≠ [] := by
  show (if trimJS alt0 = "" then [eps]
    else if trimJS alt0 = eps ∨ lowerJS (trimJS alt0) = "epsilon" then [eps]
    else if ' ' ∈ (trimJS alt0).data then wordsWs (trimJS alt0).data
    else if Master.tokenScan ((trimJS alt0).data.length + 1)
        (trimJS alt0).data = [] then [eps]
      else Master.tokenScan ((trimJS alt0).data.length + 1)
        (trimJS alt0).data) ≠ []
  by_cases h1 : trimJS alt0 = ""
  · simp [h1, eps]
  · rw [if_neg h1]
    by_cases h2 : trimJS alt0 = eps ∨ lowerJS (trimJS alt0) = "epsilon"
    · rw [if_pos h2]
      simp [eps]
    · rw [if_neg h2]
      by_cases h3 : ' ' ∈ (trimJS alt0).data
      · rw [if_pos h3]
        exact wordsWs_ne_nil _ (trimJS_has_nonws alt0 h1)
      · rw [if_neg h3]
        by_cases h4 : Master.tokenScan ((trimJS alt0).data.length + 1)
            (trimJS alt0).data = []
        · rw [if_pos h4]
          simp [eps]
        · rw [if_neg h4]
          exact h4

/-- The alternative fold of the master parser appends the tokenized
alternatives to the cell of the left-hand side and leaves every other
key unchanged. -/
theorem alts_fold_spec (lhs : Symb) (alts : List Symb) :
    ∀ p : Grammar,
      getG (alts.foldl
        (fun p alt => setG p lhs (getG p lhs [] ++ [Master.tokenizeRHS alt]))
        p) lhs [] = getG p lhs [] ++ alts.map Master.tokenizeRHS ∧
      ∀ A, A ≠ lhs →
        lookupG (alts.foldl
          (fun p alt =>
            setG p lhs (getG p lhs [] ++ [Master.tokenizeRHS alt])) p) A =
        lookupG p A := by
  induction alts with
  | nil => intro p; simp
  | cons a rest ih =>
    intro p
    constructor
    · rw [List.foldl_cons, (ih _).1, getG_setG_self]
      simp
    · intro A hA
      rw [List.foldl_cons, (ih _).2 A hA]
      unfold getG
      rw [lookupG_setG_ne _ _ _ _ (fun h => hA h.symm)]

/-- Lookup success determines the defaulted read. -/
theorem getG_eq_of_lookup {α : Type} (m : List (Symb × α)) (k : Symb)
    (v d : α) (h : lookupG m k = some v) : getG m k d = v := by
  unfold getG
  rw [h]
  rfl

/-- One line of the master parser preserves the cell invariant. -/
theorem parseLine_good (prods : Grammar) (line : Symb)
    (h : GoodProds prods) :
    GoodProds
      (match (match idxOfSub ['-', '>'] line.data with
        | some i => some i
        | none => idxOfSub ['→'] line.data) with
      | none => prods
      | some i =>
        let lhs := trimJS ⟨line.data.take i⟩
        let rhs := trimJS ⟨line.data.drop (i + 2)⟩
        let alts := (splitOnChar '|' rhs).map trimJS
        let prods1 :=
          if (lookupG prods lhs).isSome then prods else setG prods lhs []
        alts.foldl
          (fun p alt => setG p lhs (getG p lhs [] ++ [Master.tokenizeRHS alt]))
          prods1) := by
  cases hI : (match idxOfSub ['-', '>'] line.data with
    | some i => some i
    | none => idxOfSub ['→'] line.data) with
  | none => exact h
  | some i =>
    dsimp only
    set lhs := trimJS ⟨line.data.take i⟩ with hlhs
    set alts := (splitOnChar '|' (trimJS ⟨line.data.drop (i + 2)⟩)).map trimJS
      with halts
    set prods1 :=
      (if (lookupG prods lhs).isSome then prods else setG prods lhs [])
      with hprods1
    have halts_ne : alts ≠ [] := by
      rw [halts]
      intro hx
      have h1 := List.map_eq_nil_iff.mp hx
      unfold splitOnChar at h1
      have h2 := List.map_eq_nil_iff.mp h1
      unfold List.splitOn at h2
      exact List.splitOnP_ne_nil _ _ h2
    have hspec := alts_fold_spec lhs alts prods1
    intro A c hc
    by_cases hA : A = lhs
    · rw [hA] at hc
      have hgc := getG_eq_of_lookup _ _ _ ([] : Cell) hc
      have hcell : c = getG prods1 lhs [] ++ alts.map Master.tokenizeRHS :=
        hgc.symm.trans hspec.1
      constructor
      · rw [hcell]
        intro hx
        rcases List.append_eq_nil.mp hx with ⟨_, h2⟩
        exact halts_ne (List.map_eq_nil_iff.mp h2)
      · intro r hr
        rw [hcell] at hr
        rcases List.mem_append.mp hr with hr1 | hr2
        · rw [hprods1] at hr1
          by_cases hs : (lookupG prods lhs).isSome
          · rw [if_pos hs] at hr1
            obtain ⟨c0, hc0⟩ := Option.isSome_iff_exists.mp hs
            rw [getG_eq_of_lookup _ _ _ _ hc0] at hr1
            exact (h lhs c0 hc0).2 r hr1
          · rw [if_neg hs] at hr1
            rw [getG_setG_self] at hr1
            simp at hr1
        · obtain ⟨alt, _, hmap⟩ := List.mem_map.mp hr2
          rw [← hmap]
          exact tokenizeRHS_ne_nil alt
    · rw [hspec.2 A hA, hprods1] at hc
      by_cases hs : (lookupG prods lhs).isSome
      · rw [if_pos hs] at hc
        exact h A c hc
      · rw [if_neg hs, lookupG_setG_ne _ _ _ _ (fun he => hA he.symm)] at hc
        exact h A c hc

/-- C6 (counterexample): the tools.js parser drops empty alternatives
with `filter(Boolean)`, so `A ->` yields the nonterminal A with an
empty list of alternatives instead of the one-element epsilon
sequence, refuting the claim for that variant. -/
theorem C6_counterexample :
    Tools.parseGrammar "A ->" = [("A", [])] ∧
    lookupG (Tools.parseGrammar "A ->") "A" = some [] := ⟨rfl, rfl⟩

/-- C6 (amended): for the master script's parser the claim holds — an
empty alternative tokenizes to the one-element epsilon sequence, and
every nonterminal of the parsed grammar has a nonempty list of
alternatives in which every alternative is a nonempty token
sequence. -/
theorem C6_amended :
    Master.tokenizeRHS "" = [eps] ∧
    ∀ (text A : Symb) (c : Cell),
      lookupG (Master.parseGrammar text) A = some c →
      c ≠ [] ∧ ∀ r ∈ c, r ≠ [] := by
  constructor
  · rfl
  · intro text A c hc
    have hg : GoodProds (Master.parseGrammar text) := by
      unfold Master.parseGrammar
      refine foldl_preserves GoodProds _ _ ?_ [] ?_
      · intro prods line h
        exact parseLine_good prods line h
      · intro A2 c2 hc2
        simp [lookupG] at hc2
    exact hg A c hc

/-- C6 (witness): on `S -> a |` the amended theorem gives a nonempty
cell for S, whose parsed value is `[[a], [ε]]`. -/
theorem C6_witness :
    lookupG (Master.parseGrammar "S -> a |") "S" = some [["a"], [eps]] ∧
    ([["a"], [eps]] : Cell) ≠ [] :=
  ⟨by decide, (C6_amended.2 "S -> a |" "S" [["a"], [eps]] (by decide)).1⟩

theorem mem_saddAll_left {α : Type} [DecidableEq α] (s l : List α) (y : α)
    (h : y ∈ s) : y ∈ saddAll s l := by
  induction l generalizing s with
  | nil => exact h
  | cons x xs ih => exact ih (sadd s x) (sadd_subset s x h)

theorem mem_saddAll_iff {α : Type} [DecidableEq α] (s l : List α) (y : α) :
    y ∈ saddAll s l ↔ y ∈ s ∨ y ∈ l := by
  induction l generalizing s with
  | nil => simp [saddAll]
  | cons x xs ih =>
    rw [show saddAll s (x :: xs) = saddAll (sadd s x) xs from rfl, ih,
      mem_sadd, List.mem_cons]
    tauto

theorem mem_saddAll_right {α : Type} [DecidableEq α] (s l : List α) (y : α)
    (h : y ∈ l) : y ∈ saddAll s l := (mem_saddAll_iff s l y).2 (Or.inr h)

/-- Membership after a keyed write: an entry of `setG m k v` is an old
entry or the written pair. -/
theorem mem_setG {α : Type} (m : List (Symb × α)) (k : Symb) (v : α)
    (p : Symb × α) (h : p ∈ setG m k v) : p ∈ m ∨ p = (k, v) := by
  induction m with
  | nil =>
    simp only [setG, List.mem_singleton] at h
    exact Or.inr h
  | cons q rest ih =>
    unfold setG at h
    by_cases hq : q.1 = k
    · rw [if_pos hq] at h
      rcases List.mem_cons.mp h with h1 | h2
      · subst hq
        exact Or.inr (by rw [h1])
      · exact Or.inl (List.mem_cons.mpr (Or.inr h2))
    · rw [if_neg hq] at h
      rcases List.mem_cons.mp h with h1 | h2
      · exact Or.inl (List.mem_cons.mpr (Or.inl h1))
      · rcases ih h2 with h3 | h3
        · exact Or.inl (List.mem_cons.mpr (Or.inr h3))
        · exact Or.inr h3

/-- The States line only grows the state set. -/
theorem parseStatesLine_inv (st : Master.ParseStateN) (line : Symb)
    (h : NFAInv st) : NFAInv (Master.parseStatesLine st line) := by
  obtain ⟨h1, h2, h3⟩ := h
  unfold Master.parseStatesLine
  dsimp only [NFAInv]
  refine ⟨?_, ?_, ?_⟩
  · intro q hq
    exact mem_saddAll_left _ _ _ (h1 q hq)
  · intro hs
    exact mem_saddAll_left _ _ _ (h2 hs)
  · intro p hp
    refine ⟨mem_saddAll_left _ _ _ ((h3 p hp).1), ?_⟩
    intro c hc q hq
    exact mem_saddAll_left _ _ _ ((h3 p hp).2 c hc q hq)

/-- The Alphabet line leaves every relevant field unchanged. -/
theorem parseAlphaLine_inv (st : Master.ParseStateN) (line : Symb)
    (h : NFAInv st) : NFAInv (Master.parseAlphaLine st line) :=
  ⟨h.1, h.2.1, h.2.2⟩

/-- The Start line records a start state it also adds to the state
set. -/
theorem parseStartLine_inv (st : Master.ParseStateN) (line : Symb)
    (h : NFAInv st) : NFAInv (Master.parseStartLine st line) := by
  obtain ⟨h1, h2, h3⟩ := h
  unfold Master.parseStartLine
  dsimp only [NFAInv]
  refine ⟨?_, ?_, ?_⟩
  · intro q hq
    split
    · exact sadd_subset _ _ (h1 q hq)
    · exact h1 q hq
  · intro hs
    rw [if_pos hs]
    exact mem_sadd_self _ _
  · intro p hp
    refine ⟨?_, ?_⟩
    · split
      · exact sadd_subset _ _ ((h3 p hp).1)
      · exact (h3 p hp).1
    · intro c hc q hq
      split
      · exact sadd_subset _ _ ((h3 p hp).2 c hc q hq)
      · exact (h3 p hp).2 c hc q hq

/-- The Accept line adds its entries to both sets. -/
theorem parseAcceptLine_inv (st : Master.ParseStateN) (line : Symb)
    (h : NFAInv st) : NFAInv (Master.parseAcceptLine st line) := by
  obtain ⟨h1, h2, h3⟩ := h
  unfold Master.parseAcceptLine
  dsimp only [NFAInv]
  refine ⟨?_, ?_, ?_⟩
  · intro q hq
    rcases (mem_saddAll_iff _ _ _).1 hq with hq1 | hq2
    · exact mem_saddAll_left _ _ _ (h1 q hq1)
    · exact mem_saddAll_right _ _ _ hq2
  · intro hs
    exact mem_saddAll_left _ _ _ (h2 hs)
  · intro p hp
    refine ⟨mem_saddAll_left _ _ _ ((h3 p hp).1), ?_⟩
    intro c hc q hq
    exact mem_saddAll_left _ _ _ ((h3 p hp).2 c hc q hq)

/-- Recording a transition adds its endpoints to the state set. -/
theorem recordTransition_inv (st : Master.ParseStateN) (from2 sym : Symb)
    (dests : List Symb) (h : NFAInv st) :
    NFAInv (Master.recordTransition st from2 sym dests) := by
  obtain ⟨h1, h2, h3⟩ := h
  unfold Master.recordTransition
  dsimp only [NFAInv]
  refine ⟨?_, ?_, ?_⟩
  · intro q hq
    exact mem_saddAll_left _ _ _ (sadd_subset _ _ (h1 q hq))
  · intro hs
    exact mem_saddAll_left _ _ _ (sadd_subset _ _ (h2 hs))
  · intro p hp
    rcases mem_setG _ _ _ p hp with hp1 | hp2
    · refine ⟨mem_saddAll_left _ _ _ (sadd_subset _ _ ((h3 p hp1).1)), ?_⟩
      intro c hc q hq
      exact mem_saddAll_left _ _ _
        (sadd_subset _ _ ((h3 p hp1).2 c hc q hq))
    · subst hp2
      refine ⟨mem_saddAll_left _ _ _ (mem_sadd_self _ _), ?_⟩
      dsimp only
      intro c hc q hq
      cases hrow : lookupG st.transitions from2 with
      | none =>
        have hrow0 : getG st.transitions from2 [] = [] := by
          unfold getG
          rw [hrow]
          rfl
        rw [hrow0] at hc
        rcases mem_setG _ _ _ c hc with hc1 | hc2
        · exact absurd hc1 (List.not_mem_nil c)
        · subst hc2
          rcases (mem_saddAll_iff _ _ _).1 hq with hq3 | hq4
          · simp [getG, lookupG] at hq3
          · exact mem_saddAll_right _ _ _ hq4
      | some r0 =>
        have hmemr : (from2, r0) ∈ st.transitions := lookupG_mem _ _ _ hrow
        have hrow0 : getG st.transitions from2 [] = r0 :=
          getG_eq_of_lookup _ _ _ _ hrow
        rw [hrow0] at hc
        rcases mem_setG _ _ _ c hc with hc1 | hc2
        · exact mem_saddAll_left _ _ _
            (sadd_subset _ _ ((h3 _ hmemr).2 c hc1 q hq))
        · subst hc2
          rcases (mem_saddAll_iff _ _ _).1 hq with hq3 | hq4
          · cases hcell : lookupG r0 sym with
            | none =>
              have hc0 : getG r0 sym ([] : List Symb) = [] := by
                unfold getG
                rw [hcell]
                rfl
              rw [hc0] at hq3
              exact absurd hq3 (List.not_mem_nil q)
            | some cv =>
              have hmc : (sym, cv) ∈ r0 := lookupG_mem _ _ _ hcell
              have hc0 : getG r0 sym ([] : List Symb) = cv :=
                getG_eq_of_lookup _ _ _ _ hcell
              rw [hc0] at hq3
              exact mem_saddAll_left _ _ _ (sadd_subset _ _
                ((h3 _ hmemr).2 _ hmc q hq3))
          · exact mem_saddAll_right _ _ _ hq4

/-- A transition body line preserves the invariant. -/
theorem parseTransLine_inv (st : Master.ParseStateN) (line : Symb)
    (h : NFAInv st) : NFAInv (Master.parseTransLine st line) := by
  unfold Master.parseTransLine
  dsimp only
  split
  · exact h
  · split
    · exact h
    · split
      · exact h
      · split
        · exact ⟨h.1, h.2.1, h.2.2⟩
        · exact recordTransition_inv _ _ _ _ ⟨h.1, h.2.1, h.2.2⟩

/-- Each parsed line preserves the NFA state-set invariant: every
mentioned state stays inside the accumulated state set. -/
theorem parseNFALine_inv (st : Master.ParseStateN) (line : Symb)
    (h : NFAInv st) : NFAInv (Master.parseNFALine st line) := by
  unfold Master.parseNFALine
  split
  · exact parseStatesLine_inv st line h
  · split
    · exact parseAlphaLine_inv st line h
    · split
      · exact parseStartLine_inv st line h
      · split
        · exact parseAcceptLine_inv st line h
        · split
          · exact ⟨h.1, h.2.1, h.2.2⟩
          · split
            · exact parseTransLine_inv st line h
            · exact h

/-- The folded parsing state satisfies the invariant for every input. -/
theorem parseNFAState_inv (text : Symb) :
    NFAInv (Master.parseNFAState text) := by
  unfold Master.parseNFAState
  refine foldl_preserves NFAInv _ _
    (fun st line h => parseNFALine_inv st line h) _ ?_
  refine ⟨?_, ?_, ?_⟩
  · intro q hq
    exact absurd hq (List.not_mem_nil q)
  · intro hs
    exact absurd rfl hs
  · intro p hp
    exact absurd hp (List.not_mem_nil p)

/-- C7 (counterexample): with a States line that omits q1, the parser
returns states = [q0] although q1 is an accepting state and a
transition destination — mentioned states are not added to a declared
states list, refuting the claim as stated. -/
theorem C7_counterexample :
    Master.parseNFACombined tEx7 = .ok nfa7 ∧
    "q1" ∈ nfa7.accepts ∧ "q1" ∉ nfa7.states := by
  refine ⟨rfl, by decide, by decide⟩

/-- C7 (amended): when the description declares no States line (the
declared list stays empty), the returned automaton does contain every
mentioned state: its accepting states, its start state and all
transition endpoints are members of its states list. -/
theorem C7_amended (text : Symb) (nfa : Master.NFA)
    (hok : Master.parseNFACombined text = .ok nfa)
    (hdecl : (Master.parseNFAState text).statesList = []) :
    (∀ q ∈ nfa.accepts, q ∈ nfa.states) ∧ nfa.start ∈ nfa.states ∧
    (∀ p ∈ nfa.transitions, p.1 ∈ nfa.states ∧
      ∀ c ∈ p.2, ∀ q ∈ c.2, q ∈ nfa.states) := by
  obtain ⟨h1, h2, h3⟩ := parseNFAState_inv text
  unfold Master.parseNFACombined at hok
  dsimp only at hok
  rw [hdecl] at hok
  by_cases hne : (Master.parseNFAState text).stateSet = []
  · simp [hne] at hok
  · have hcond : ([] : List Symb) = [] ∧
        (Master.parseNFAState text).stateSet ≠ [] := ⟨rfl, hne⟩
    rw [if_pos hcond, if_neg hne] at hok
    have hnfa := Except.ok.inj hok
    subst hnfa
    refine ⟨h1, ?_, h3⟩
    dsimp only
    by_cases hstart : (Master.parseNFAState text).start = ""
    · rw [if_pos hstart]
      obtain ⟨x, xs, hxs⟩ := List.exists_cons_of_ne_nil hne
      rw [hxs]
      exact List.mem_cons_self x xs
    · rw [if_neg hstart]
      exact h2 hstart

/-- C7 (witness): the description without a States line parses with
its start state in the returned states list. -/
theorem C7_witness :
    (Master.parseNFAState tEx7b).statesList = [] ∧
    nfa7b.start ∈ nfa7b.states :=
  ⟨by decide, (C7_amended tEx7b nfa7b rfl (by decide)).2.1⟩

/-- C8: minimization is not idempotent.  Minimizing `d8` merges q1 and
q2 into an accepting block named `q1,q2`; minimizing the result splits
that name on commas when rebuilding the accepting set, finds neither
part among the accepting states, and returns an automaton with no
accepting states at all — the accepting structure is not preserved, so
the second result is not isomorphic to the first. -/
theorem C8_minimize_not_idempotent :
    Master.minimizeDFACombined d8 = .ok m8 ∧
    Master.minimizeDFACombined m8 = .ok m8x ∧
    m8.accepts.length = 1 ∧ m8x.accepts = [] :=
  ⟨by rfl, by rfl, rfl, rfl⟩

theorem sadd_ne_nil {α : Type} [DecidableEq α] (s : List α) (x : α) :
    sadd s x ≠ [] := by
  unfold sadd
  split
  · next hx =>
    intro he
    rw [he] at hx
    exact absurd hx (List.not_mem_nil x)
  · simp

theorem saddAll_ne_nil {α : Type} [DecidableEq α] :
    ∀ (l s : List α), s ≠ [] ∨ l ≠ [] → saddAll s l ≠ [] := by
  intro l
  induction l with
  | nil =>
    intro s h
    rcases h with h | h
    · exact h
    · exact absurd rfl h
  | cons x xs ih =>
    intro s _
    exact ih (sadd s x) (Or.inl (sadd_ne_nil s x))

theorem saddAll_length_le {α : Type} [DecidableEq α] :
    ∀ (l s : List α), (saddAll s l).length ≤ s.length + l.length := by
  intro l
  induction l with
  | nil => intro s; simp [saddAll]
  | cons x xs ih =>
    intro s
    calc (saddAll (sadd s x) xs).length
        ≤ (sadd s x).length + xs.length := ih (sadd s x)
      _ ≤ s.length + 1 + xs.length :=
          Nat.add_le_add_right (length_sadd_le s x) _
      _ = s.length + (x :: xs).length := by simp; omega

theorem sumLen_append (P Q : List (List Symb)) :
    sumLen (P ++ Q) = sumLen P + sumLen Q := by
  induction P with
  | nil => simp [sumLen]
  | cons b Ps ih => simp [sumLen, List.foldr_cons] at ih ⊢; omega

theorem length_le_sumLen (P : List (List Symb)) (h : ∀ b ∈ P, b ≠ []) :
    P.length ≤ sumLen P := by
  induction P with
  | nil => simp [sumLen]
  | cons b Ps ih =>
    have hb : 0 < b.length :=
      List.length_pos.mpr (h b (List.mem_cons_self b Ps))
    have := ih (fun x hx => h x (List.mem_cons_of_mem b hx))
    simp only [List.length_cons, sumLen, List.foldr_cons]
    have hs : sumLen Ps = Ps.foldr (fun b n => b.length + n) 0 := rfl
    omega

theorem filter_split_length {α : Type} (l : List α) (p : α → Bool) :
    (l.filter p).length + (l.filter (fun a => !(p a))).length = l.length := by
  induction l with
  | nil => simp
  | cons x xs ih =>
    by_cases hx : p x <;> simp [List.filter_cons, hx] <;> omega

/-- Replacing the value at a present key by one at most one longer
raises the total by at most one. -/
theorem sumLen_setG_le (gs : List (Symb × List Symb)) (k : Symb)
    (g v : List Symb) (hg : lookupG gs k = some g)
    (hv : v.length ≤ g.length + 1) :
    sumLen ((setG gs k v).map Prod.snd) ≤
      sumLen (gs.map Prod.snd) + 1 := by
  induction gs with
  | nil => simp [lookupG] at hg
  | cons p rest ih =>
    unfold setG
    by_cases hp : p.1 = k
    · rw [if_pos hp]
      unfold lookupG at hg
      rw [if_pos hp] at hg
      have hpg : p.2 = g := Option.some.inj hg
      simp only [List.map_cons, sumLen, List.foldr_cons]
      have h1 : sumLen (rest.map Prod.snd) =
          (rest.map Prod.snd).foldr (fun b n => b.length + n) 0 := rfl
      rw [hpg] at *
      omega
    · rw [if_neg hp]
      unfold lookupG at hg
      rw [if_neg hp] at hg
      have := ih hg
      simp only [List.map_cons, sumLen, List.foldr_cons] at this ⊢
      omega

/-- The signature-grouping fold: total group size grows by at most the
number of scanned states, and every group is nonempty. -/
theorem sigGroups_go (dfa : Master.DFA) (P : List (List Symb)) :
    ∀ (bl : List Symb) (gs0 : List (Symb × List Symb)),
      (∀ p ∈ gs0, p.2 ≠ []) →
      sumLen ((bl.foldl
        (fun gs s =>
          match lookupG gs (Master.sigOf dfa P s) with
          | some g => setG gs (Master.sigOf dfa P s) (sadd g s)
          | none => gs ++ [(Master.sigOf dfa P s, [s])])
        gs0).map Prod.snd) ≤ sumLen (gs0.map Prod.snd) + bl.length ∧
      ∀ p ∈ bl.foldl
        (fun gs s =>
          match lookupG gs (Master.sigOf dfa P s) with
          | some g => setG gs (Master.sigOf dfa P s) (sadd g s)
          | none => gs ++ [(Master.sigOf dfa P s, [s])])
        gs0, p.2 ≠ [] := by
  intro bl
  induction bl with
  | nil =>
    intro gs0 h0
    exact ⟨Nat.le_add_right _ _, h0⟩
  | cons s rest ih =>
    intro gs0 h0
    rw [List.foldl_cons]
    cases hl : lookupG gs0 (Master.sigOf dfa P s) with
    | some g =>
      have hstep1 : sumLen ((setG gs0 (Master.sigOf dfa P s)
          (sadd g s)).map Prod.snd) ≤ sumLen (gs0.map Prod.snd) + 1 :=
        sumLen_setG_le gs0 _ g (sadd g s) hl (length_sadd_le g s)
      have hstep2 : ∀ p ∈ setG gs0 (Master.sigOf dfa P s) (sadd g s),
          p.2 ≠ [] := by
        intro p hp
        rcases mem_setG _ _ _ p hp with hp1 | hp2
        · exact h0 p hp1
        · rw [hp2]
          exact sadd_ne_nil g s
      have := ih _ hstep2
      simp only [hl]
      refine ⟨?_, this.2⟩
      calc sumLen _ ≤ sumLen ((setG gs0 (Master.sigOf dfa P s)
            (sadd g s)).map Prod.snd) + rest.length := this.1
        _ ≤ sumLen (gs0.map Prod.snd) + 1 + rest.length :=
            Nat.add_le_add_right hstep1 _
        _ = sumLen (gs0.map Prod.snd) + (s :: rest).length := by
            simp
            omega
    | none =>
      have hstep2 : ∀ p ∈ gs0 ++ [(Master.sigOf dfa P s, [s])],
          p.2 ≠ [] := by
        intro p hp
        rcases List.mem_append.mp hp with hp1 | hp2
        · exact h0 p hp1
        · simp only [List.mem_singleton] at hp2
          rw [hp2]
          simp
      have := ih _ hstep2
      simp only [hl]
      refine ⟨?_, this.2⟩
      calc sumLen _ ≤ sumLen ((gs0 ++
            [(Master.sigOf dfa P s, [s])]).map Prod.snd) + rest.length :=
          this.1
        _ = sumLen (gs0.map Prod.snd) + 1 + rest.length := by
            rw [List.map_append, sumLen_append]
            simp [sumLen]
        _ = sumLen (gs0.map Prod.snd) + (s :: rest).length := by
            simp
            omega

/-- Signature groups of a block: no larger in total than the block,
and each group nonempty. -/
theorem sigGroups_spec (dfa : Master.DFA) (P : List (List Symb))
    (block : List Symb) :
    sumLen ((Master.sigGroups dfa P block).map Prod.snd) ≤ block.length ∧
    ∀ p ∈ Master.sigGroups dfa P block, p.2 ≠ [] := by
  have := sigGroups_go dfa P block [] (by intro p hp; cases hp)
  unfold Master.sigGroups
  constructor
  · have h1 := this.1
    simpa [sumLen] using h1
  · exact this.2

/-- The refinement pass fold keeps the total size bounded and the
blocks nonempty. -/
theorem refineStep_go (dfa : Master.DFA) (P : List (List Symb)) :
    ∀ (Ps : List (List Symb)) (acc : List (List Symb) × Bool),
      (∀ b ∈ Ps, b ≠ []) → (∀ b ∈ acc.1, b ≠ []) →
      sumLen (Ps.foldl
        (fun (acc : List (List Symb) × Bool) block =>
          if block.length ≤ 1 then (acc.1 ++ [block], acc.2)
          else
            let gs := Master.sigGroups dfa P block
            if gs.length = 1 then (acc.1 ++ [block], acc.2)
            else (acc.1 ++ gs.map Prod.snd, true))
        acc).1 ≤ sumLen acc.1 + sumLen Ps ∧
      ∀ b ∈ (Ps.foldl
        (fun (acc : List (List Symb) × Bool) block =>
          if block.length ≤ 1 then (acc.1 ++ [block], acc.2)
          else
            let gs := Master.sigGroups dfa P block
            if gs.length = 1 then (acc.1 ++ [block], acc.2)
            else (acc.1 ++ gs.map Prod.snd, true))
        acc).1, b ≠ [] := by
  intro Ps
  induction Ps with
  | nil =>
    intro acc _ hacc
    exact ⟨Nat.le_add_right _ _, hacc⟩
  | cons block rest ih =>
    intro acc hPs hacc
    rw [List.foldl_cons]
    have hblock : block ≠ [] := hPs block (List.mem_cons_self block rest)
    have hrest : ∀ b ∈ rest, b ≠ [] :=
      fun b hb => hPs b (List.mem_cons_of_mem block hb)
    by_cases h1 : block.length ≤ 1
    · rw [if_pos h1]
      have hacc2 : ∀ b ∈ acc.1 ++ [block], b ≠ [] := by
        intro b hb
        rcases List.mem_append.mp hb with hb1 | hb2
        · exact hacc b hb1
        · simp only [List.mem_singleton] at hb2
          rw [hb2]
          exact hblock
      have := ih (acc.1 ++ [block], acc.2) hrest hacc2
      refine ⟨?_, this.2⟩
      calc _ ≤ sumLen (acc.1 ++ [block]) + sumLen rest := this.1
        _ = sumLen acc.1 + sumLen (block :: rest) := by
            rw [sumLen_append]
            simp [sumLen]
            omega
    · rw [if_neg h1]
      dsimp only
      by_cases h2 : (Master.sigGroups dfa P block).length = 1
      · rw [if_pos h2]
        have hacc2 : ∀ b ∈ acc.1 ++ [block], b ≠ [] := by
          intro b hb
          rcases List.mem_append.mp hb with hb1 | hb2
          · exact hacc b hb1
          · simp only [List.mem_singleton] at hb2
            rw [hb2]
            exact hblock
        have := ih (acc.1 ++ [block], acc.2) hrest hacc2
        refine ⟨?_, this.2⟩
        calc _ ≤ sumLen (acc.1 ++ [block]) + sumLen rest := this.1
          _ = sumLen acc.1 + sumLen (block :: rest) := by
              rw [sumLen_append]
              simp [sumLen]
              omega
      · rw [if_neg h2]
        have hgs := sigGroups_spec dfa P block
        have hacc2 : ∀ b ∈ acc.1 ++
            (Master.sigGroups dfa P block).map Prod.snd, b ≠ [] := by
          intro b hb
          rcases List.mem_append.mp hb with hb1 | hb2
          · exact hacc b hb1
          · obtain ⟨p, hp, hpb⟩ := List.mem_map.mp hb2
            rw [← hpb]
            exact hgs.2 p hp
        have := ih (acc.1 ++
          (Master.sigGroups dfa P block).map Prod.snd, true) hrest hacc2
        refine ⟨?_, this.2⟩
        calc _ ≤ sumLen (acc.1 ++
              (Master.sigGroups dfa P block).map Prod.snd) + sumLen rest :=
            this.1
          _ ≤ sumLen acc.1 + block.length + sumLen rest := by
              rw [sumLen_append]
              omega
          _ ≤ sumLen acc.1 + sumLen (block :: rest) := by
              simp [sumLen]
              omega

/-- One refinement pass keeps the bound and the nonemptiness. -/
theorem refineStep_inv (dfa : Master.DFA) (P : List (List Symb)) (N : Nat)
    (h1 : sumLen P ≤ N) (h2 : ∀ b ∈ P, b ≠ []) :
    sumLen (Master.refineStep dfa P).1 ≤ N ∧
    ∀ b ∈ (Master.refineStep dfa P).1, b ≠ [] := by
  have := refineStep_go dfa P P ([], false) h2 (by intro b hb; cases hb)
  unfold Master.refineStep
  refine ⟨?_, this.2⟩
  calc _ ≤ sumLen ([] : List (List Symb)) + sumLen P := this.1
    _ ≤ N := by simpa [sumLen] using h1

/-- The refinement loop keeps the bound and the nonemptiness for every
fuel value. -/
theorem refineLoop_inv (dfa : Master.DFA) :
    ∀ (fuel : Nat) (P : List (List Symb)) (N : Nat), sumLen P ≤ N →
      (∀ b ∈ P, b ≠ []) →
      sumLen (Master.refineLoop dfa fuel P) ≤ N ∧
      ∀ b ∈ Master.refineLoop dfa fuel P, b ≠ [] := by
  intro fuel
  induction fuel with
  | zero =>
    intro P N h1 h2
    exact ⟨h1, h2⟩
  | succ f ih =>
    intro P N h1 h2
    unfold Master.refineLoop
    dsimp only
    split
    · have hstep := refineStep_inv dfa P N h1 h2
      exact ih _ N hstep.1 hstep.2
    · exact ⟨h1, h2⟩

/-- Unreachable-state removal only filters the states list. -/
theorem removeUnreachable_states_le (dfa : Master.DFA) :
    (Master.removeUnreachableDFACombined dfa).states.length ≤
      dfa.states.length := by
  unfold Master.removeUnreachableDFACombined
  split
  · exact Nat.le_refl _
  · dsimp only
    exact List.length_filter_le _ _

/-- C10: `minimizeDFACombined` never increases the number of states —
unreachable-state removal filters the states list and every refinement
pass splits blocks of a partition whose total size never exceeds the
(filtered) state count, so the block count, which is the output state
count, is bounded by the input state count. -/
theorem C10_minimize_no_state_increase (dfa m : Master.DFA)
    (h : Master.minimizeDFACombined dfa = .ok m) :
    m.states.length ≤ dfa.states.length := by
  have hrem := removeUnreachable_states_le dfa
  unfold Master.minimizeDFACombined at h
  dsimp only at h
  set d2 := Master.removeUnreachableDFACombined dfa with hd2
  by_cases hs : d2.states = []
  · rw [if_pos hs] at h
    cases h
  · rw [if_neg hs] at h
    set finals := d2.states.filter (fun s => decide (s ∈ d2.accepts))
      with hfin
    set nonFinals := d2.states.filter (fun s => decide (s ∉ d2.accepts))
      with hnfin
    set P0 := (if finals ≠ [] then [saddAll [] finals] else []) ++
      (if nonFinals ≠ [] then [saddAll [] nonFinals] else []) with hP0
    by_cases hp0 : P0 = []
    · rw [if_pos hp0] at h
      cases h
    · rw [if_neg hp0] at h
      have hm := Except.ok.inj h
      subst hm
      dsimp only
      rw [List.length_map]
      have hflen : finals.length + nonFinals.length = d2.states.length := by
        rw [hfin, hnfin]
        have hfun : (fun s => decide (s ∉ d2.accepts)) =
            (fun s => !(decide (s ∈ d2.accepts))) := by
          funext s
          simp
        rw [hfun]
        exact filter_split_length d2.states (fun s => decide (s ∈ d2.accepts))
      have hsum0 : sumLen P0 ≤ d2.states.length := by
        have h1 := saddAll_length_le finals ([] : List Symb)
        have h2 := saddAll_length_le nonFinals ([] : List Symb)
        simp only [List.length_nil] at h1 h2
        have e1 : sumLen [saddAll [] finals] =
            (saddAll [] finals).length := by simp [sumLen]
        have e2 : sumLen [saddAll [] nonFinals] =
            (saddAll [] nonFinals).length := by simp [sumLen]
        have e0 : sumLen ([] : List (List Symb)) = 0 := rfl
        rw [hP0]
        by_cases hf : finals ≠ []
        · by_cases hn : nonFinals ≠ []
          · rw [if_pos hf, if_pos hn, sumLen_append]
            omega
          · rw [if_pos hf, if_neg hn, sumLen_append]
            omega
        · by_cases hn : nonFinals ≠ []
          · rw [if_neg hf, if_pos hn, sumLen_append]
            omega
          · rw [if_neg hf, if_neg hn, sumLen_append]
            omega
      have hne0 : ∀ b ∈ P0, b ≠ [] := by
        rw [hP0]
        intro b hb
        rcases List.mem_append.mp hb with hb1 | hb2
        · by_cases hf : finals ≠ []
          · rw [if_pos hf] at hb1
            simp only [List.mem_singleton] at hb1
            rw [hb1]
            exact saddAll_ne_nil finals [] (Or.inr hf)
          · rw [if_neg hf] at hb1
            cases hb1
        · by_cases hn : nonFinals ≠ []
          · rw [if_pos hn] at hb2
            simp only [List.mem_singleton] at hb2
            rw [hb2]
            exact saddAll_ne_nil nonFinals [] (Or.inr hn)
          · rw [if_neg hn] at hb2
            cases hb2
      have hinv := refineLoop_inv d2 (d2.states.length + 1) P0
        d2.states.length hsum0 hne0
      calc (Master.refineLoop d2 (d2.states.length + 1) P0).length
          ≤ sumLen (Master.refineLoop d2 (d2.states.length + 1) P0) :=
            length_le_sumLen _ hinv.2
        _ ≤ d2.states.length := hinv.1
        _ ≤ dfa.states.length := hrem

/-- C10 (witness): the one-state DFA `dW` minimizes successfully and
the state count does not grow. -/
theorem C10_witness :
    Master.minimizeDFACombined dW = .ok mW ∧
    mW.states.length ≤ dW.states.length :=
  ⟨by rfl, C10_minimize_no_state_increase dW mW (by rfl)⟩
